import Mathlib

/-!
A verification development for the `roche_offline` offline OCR indexing
pipeline.  The Python sources (`offline_indexer.py`, `utils/embedding.py`,
`utils/lang_detect.py`, `utils/open_api.py`) are shallowly embedded as Lean
functions: pure string processing is translated directly, the model backend
(`qwen_vl_predict` / `Model.__call__`) is parameterised by the outcome of each
HTTP call, the multiprocessing batch loop of `main` is an explicit fold over
the chunked key list together with a file-system map `Nat → Option _` for the
part files, and fallible code returns `Option`.
-/

set_option maxRecDepth 10000

/-! ## Basic string helpers -/

/-- Python's `sep.join(xs)` for a list of strings. -/
def joinSep (sep : String) : List String → String
  | [] => ""
  | [x] => x
  | x :: y :: xs => x ++ sep ++ joinSep sep (y :: xs)

/-- `needle` occurs contiguously inside `haystack`. -/
def strContains (haystack needle : String) : Prop :=
  needle.data <:+: haystack.data

instance (s t : String) : Decidable (strContains s t) := by
  unfold strContains; infer_instance

/-- `n` concatenated copies of the character list `g`. -/
def repeatList (g : List Char) : Nat → List Char
  | 0 => []
  | n + 1 => g ++ repeatList g n

/-- `n` concatenated copies of the string `u`. -/
def repeatStr (u : String) (n : Nat) : String := ⟨repeatList u.data n⟩

theorem repeatList_length (g : List Char) : ∀ n, (repeatList g n).length = g.length * n
  | 0 => by simp [repeatList]
  | n + 1 => by
    simp [repeatList, repeatList_length g n, Nat.mul_succ, Nat.add_comm]

theorem repeatList_reverse (g : List Char) :
    ∀ n, (repeatList g n).reverse = repeatList g.reverse n
  | 0 => by simp [repeatList]
  | n + 1 => by
    simp [repeatList, repeatList_reverse g n]
    induction n with
    | zero => simp [repeatList]
    | succ m ih => simp [repeatList, ih, List.append_assoc]

/-- Python slice `l[a:b]`. -/
def pySlice (l : List α) (a b : Nat) : List α := (l.drop a).take (b - a)

theorem infix_append_middle {l m r x : List Char} (h : x <:+: m) :
    x <:+: l ++ m ++ r := by
  obtain ⟨s, t, rfl⟩ := h
  exact ⟨l ++ s, t ++ r, by simp [List.append_assoc]⟩

theorem strContains_of_mem_joinSep {sep : String} {l : List String} {x : String} :
    x ∈ l → strContains (joinSep sep l) x := by
  induction l with
  | nil => intro hx; cases hx
  | cons a l ih =>
    intro hx
    rcases List.mem_cons.mp hx with heq | hmem
    · cases l with
      | nil => exact ⟨[], [], by simp [joinSep, heq]⟩
      | cons b l' =>
        refine ⟨[], sep.data ++ (joinSep sep (b :: l')).data, ?_⟩
        simp [joinSep, String.data_append, heq]
    · cases l with
      | nil => cases hmem
      | cons b l' =>
        obtain ⟨s, t, hst⟩ := ih hmem
        refine ⟨a.data ++ sep.data ++ s, t, ?_⟩
        simp [joinSep, String.data_append, ← hst, List.append_assoc]

theorem getD_mem_pySlice {l : List α} {a b j : Nat} (d : α)
    (h1 : a ≤ j) (h2 : j < b) (h3 : j < l.length) :
    l.getD j d ∈ pySlice l a b := by
  have hjb : j - a < b - a := by omega
  have h4 : (pySlice l a b)[j - a]? = some (l.getD j d) := by
    rw [pySlice, List.getElem?_take_of_lt hjb, List.getElem?_drop]
    have hj : a + (j - a) = j := by omega
    rw [hj, List.getElem?_eq_getElem h3]
    simp [List.getD_eq_getElem?_getD, List.getElem?_eq_getElem h3]
  exact List.getElem?_mem h4

/-! ## `utils/open_api.py` — model calls

`Model.__call__` streams a chat completion.  Its observable outcome is one of:
the stream finished with accumulated text `s` (returned), the HTTP/stream
call timed out (`httpx.TimeoutException` / `asyncio.TimeoutError` is caught
and the **empty string is returned**, lines 94-101), or some other exception
was raised (re-raised, lines 102-109).  We embed one call outcome as
`CallResult` and the call itself as `Model_call`. -/

inductive CallResult where
  | ok (s : String)
  | timeout
  | error
  deriving DecidableEq, Repr

/-- `Model.__call__`: `ok s ↦ s`; a timeout is caught and returns `""`;
any other exception propagates (`none`). -/
def Model_call : CallResult → Option String
  | CallResult.ok s => some s
  | CallResult.timeout => some ""
  | CallResult.error => none

/-- `qwen_vl_predict`: tries backends one after another (the random order is
abstracted into the order of `outcomes`); an exception moves on to the next
backend, and when no backend is left the last exception propagates (`none`).
A timeout of `Model.__call__` is *not* an exception: it returns `""`. -/
def qwen_vl_predict : List CallResult → Option String
  | [] => none
  | r :: rest =>
    match Model_call r with
    | some s => some s
    | none => qwen_vl_predict rest

/-! ## `offline_indexer.py` — `process_single_file_sync` (lines 164-213)

One pipeline invocation under `asyncio.wait_for` either returns a result,
times out (`asyncio.TimeoutError`), or raises some other exception.  The
wall-clock behaviour of attempt number `a` is abstracted as `behave a`. -/

inductive AttemptResult (ρ : Type) where
  | ok (r : ρ)
  | timeout
  | fail
  deriving DecidableEq, Repr

/-- `timeout_per_file = 300  # 5 minutes per file` (line 277 of
`offline_indexer.py`). -/
def timeout_per_file : Nat := 300

/-- `process_single_file_sync`: a `for attempt in range(2)` loop; a timeout on
attempt 0 continues to attempt 1; a timeout on attempt 1 gives up (`None`); a
non-timeout exception returns `None` at once.  Returns the document outcome
together with the number of pipeline invocations made. -/
def process_single_file_sync (behave : Nat → AttemptResult ρ) : Option ρ × Nat :=
  match behave 0 with
  | AttemptResult.ok r => (some r, 1)
  | AttemptResult.fail => (none, 1)
  | AttemptResult.timeout =>
    match behave 1 with
    | AttemptResult.ok r => (some r, 2)
    | AttemptResult.fail => (none, 2)
    | AttemptResult.timeout => (none, 2)

/-! ## `offline_indexer.py` — saving a part file (lines 333-336)

```
with open(part_file, 'w', encoding='utf-8') as f:
    json.dump(batch_data, f, ensure_ascii=False, indent=2)
```

The file is opened at its final path in mode `'w'` (create/truncate) and the
serialised text is then written incrementally into it; no temporary path and
no rename is involved.  A concurrent reader of the checkpoint directory can
therefore observe: no file (before `open`), or the file holding any prefix of
the final text (from the truncation at `open` until the write completes).
`writeStates text` is that sequence of observable file states in order,
`none` = the file does not exist, `some s` = the file exists with content
`s`. -/

def writeStates (text : String) : List (Option String) :=
  none :: (List.range (text.length + 1)).map (fun k => some ⟨text.data.take k⟩)

/-- For comparison, the observable states of the write-to-temp-then-rename
protocol the spec describes: the final path atomically goes from absent to
complete. -/
def atomicWriteStates (text : String) : List (Option String) :=
  [none, some text]

/-! ## `offline_indexer.py` — `main` (lines 244-346): the batch loop

`all_keys = sorted(list(ocr_data.keys()))` produces the stable ascending key
order; the task list is walked in slices of `batch_size = 2000`; the part
number starts at 1 and goes up by one per slice.  A slice whose part file
already exists is skipped (its contents are merged into `all_results`),
otherwise every task of the slice goes through the pipeline
(`process_single_file_sync`), the successful results are written to the part
file, and failures are dropped.

The embedding: `pipeline k` is the outcome of `process_single_file_sync` for
key `k` (`none` = failed/timed out, dropped), `fs part` is the part file with
number `part` on disk at that moment (`none` = absent), and `runBatches`
returns the merged `all_results`, the list of keys that were actually handed
to the pipeline, and the final state of the part files. -/

/-- Python's string comparison: lexicographic on Unicode code points. -/
def charListLe : List Char → List Char → Bool
  | [], _ => true
  | _ :: _, [] => false
  | a :: as, b :: bs =>
    decide (a.toNat < b.toNat) || (decide (a.toNat = b.toNat) && charListLe as bs)

/-- `a <= b` for Python strings. -/
def keyLe (a b : String) : Bool := charListLe a.data b.data

theorem charListLe_total : ∀ as bs : List Char,
    charListLe as bs = true ∨ charListLe bs as = true := by
  intro as
  induction as with
  | nil => intro bs; exact Or.inl rfl
  | cons a as ih =>
    intro bs
    cases bs with
    | nil => exact Or.inr rfl
    | cons b bs =>
      simp only [charListLe, Bool.or_eq_true, Bool.and_eq_true, decide_eq_true_eq]
      rcases Nat.lt_trichotomy a.toNat b.toNat with h | h | h
      · exact Or.inl (Or.inl h)
      · rcases ih bs with h2 | h2
        · exact Or.inl (Or.inr ⟨h, h2⟩)
        · exact Or.inr (Or.inr ⟨h.symm, h2⟩)
      · exact Or.inr (Or.inl h)

theorem charListLe_trans : ∀ as bs cs : List Char,
    charListLe as bs = true → charListLe bs cs = true → charListLe as cs = true := by
  intro as
  induction as with
  | nil => intro bs cs _ _; rfl
  | cons a as ih =>
    intro bs cs hab hbc
    cases bs with
    | nil => simp [charListLe] at hab
    | cons b bs =>
      cases cs with
      | nil => simp [charListLe] at hbc
      | cons c cs =>
        simp only [charListLe, Bool.or_eq_true, Bool.and_eq_true,
          decide_eq_true_eq] at hab hbc ⊢
        rcases hab with hab | ⟨hab, hab2⟩
        · rcases hbc with hbc | ⟨hbc, _⟩
          · exact Or.inl (Nat.lt_trans hab hbc)
          · exact Or.inl (hbc ▸ hab)
        · rcases hbc with hbc | ⟨hbc, hbc2⟩
          · exact Or.inl (hab ▸ hbc)
          · exact Or.inr ⟨hab.trans hbc, ih bs cs hab2 hbc2⟩

instance : IsTotal String (fun a b => keyLe a b = true) :=
  ⟨fun a b => charListLe_total a.data b.data⟩

instance : IsTrans String (fun a b => keyLe a b = true) :=
  ⟨fun a b c => charListLe_trans a.data b.data c.data⟩

/-- `sorted(list(ocr_data.keys()))` (line 281): stable ascending sort in
Python's string order. -/
def sortedKeys (keys : List String) : List String :=
  keys.insertionSort (fun a b => keyLe a b = true)

/-- Chunking helper with explicit fuel (each step consumes a nonempty slice,
so `l.length` fuel always suffices). -/
def chunksGo : Nat → List α → List (List α)
  | 0, _ => []
  | _ + 1, [] => []
  | fuel + 1, x :: xs => (x :: xs).take 2000 :: chunksGo fuel ((x :: xs).drop 2000)

/-- `tasks[i:i + batch_size]` for `i = 0, 2000, 4000, …` (line 296/309):
the task list cut into slices of `batch_size = 2000`. -/
def chunkBatches (l : List α) : List (List α) := chunksGo l.length l

/-- `batch_data` for one slice: every key goes through the pipeline and only
the successful ones are kept (lines 320-329). -/
def processBatch (pipeline : String → Option ρ) (chunk : List String) :
    List (String × ρ) :=
  chunk.filterMap (fun k => (pipeline k).map (fun r => (k, r)))

/-- The outcome of the batch loop. -/
structure RunResult (ρ : Type) where
  results : List (String × ρ)
  processed : List String
  files : Nat → Option (List (String × ρ))

/-- The `for i in range(0, len(tasks), batch_size)` loop (lines 296-338) over
the already-chunked task list, carrying the current part number and the part
files on disk.  An existing part file means: load it into the merged results
and skip the slice; otherwise process the slice and write its part file. -/
def runBatches (pipeline : String → Option ρ) :
    (Nat → Option (List (String × ρ))) → List (List String) → Nat → RunResult ρ
  | fs, [], _ => ⟨[], [], fs⟩
  | fs, chunk :: rest, part =>
    match fs part with
    | some existing =>
      let r := runBatches pipeline fs rest (part + 1)
      ⟨existing ++ r.results, r.processed, r.files⟩
    | none =>
      let batchData := processBatch pipeline chunk
      let r := runBatches pipeline
        (fun m => if m = part then some batchData else fs m) rest (part + 1)
      ⟨batchData ++ r.results, chunk ++ r.processed, r.files⟩

/-- `main`'s whole processing loop: sort the keys, chunk them, start at part
number 1. -/
def mainRun (pipeline : String → Option ρ) (fs : Nat → Option (List (String × ρ)))
    (keys : List String) : RunResult ρ :=
  runBatches pipeline fs (chunkBatches (sortedKeys keys)) 1

theorem chunksGo_join :
    ∀ (fuel : Nat) (l : List α), l.length ≤ fuel → (chunksGo fuel l).flatten = l := by
  intro fuel
  induction fuel with
  | zero =>
    intro l hl
    have : l = [] := List.eq_nil_of_length_eq_zero (Nat.le_zero.mp hl)
    simp [this, chunksGo]
  | succ fuel ih =>
    intro l hl
    cases l with
    | nil => simp [chunksGo]
    | cons x xs =>
      have hlen : ((x :: xs).drop 2000).length ≤ fuel := by
        simp only [List.length_drop, List.length_cons]
        simp only [List.length_cons] at hl
        omega
      simp only [chunksGo, List.flatten_cons, ih _ hlen, List.take_append_drop]

theorem chunkBatches_join (l : List α) : (chunkBatches l).flatten = l :=
  chunksGo_join l.length l (Nat.le_refl _)

theorem chunksGo_getD :
    ∀ (fuel : Nat) (l : List α) (i : Nat), l.length ≤ fuel →
      (chunksGo fuel l).getD i [] = (l.drop (2000 * i)).take 2000 := by
  intro fuel
  induction fuel with
  | zero =>
    intro l i hl
    have : l = [] := List.eq_nil_of_length_eq_zero (Nat.le_zero.mp hl)
    simp [this, chunksGo]
  | succ fuel ih =>
    intro l i hl
    cases l with
    | nil => simp [chunksGo]
    | cons x xs =>
      cases i with
      | zero => simp only [chunksGo, List.getD_cons_zero, Nat.mul_zero, List.drop_zero]
      | succ j =>
        have hlen : ((x :: xs).drop 2000).length ≤ fuel := by
          simp only [List.length_drop, List.length_cons]
          simp only [List.length_cons] at hl
          omega
        have hrec := ih ((x :: xs).drop 2000) j hlen
        simp only [chunksGo, List.getD_cons_succ, hrec, List.drop_drop]
        have harith : 2000 + 2000 * j = 2000 * (j + 1) := by ring
        rw [harith]

theorem chunkBatches_getD (l : List α) (i : Nat) :
    (chunkBatches l).getD i [] = (l.drop (2000 * i)).take 2000 :=
  chunksGo_getD l.length l i (Nat.le_refl _)

theorem chunksGo_lt_length :
    ∀ (fuel : Nat) (l : List α) (i : Nat), l.length ≤ fuel →
      2000 * i < l.length → i < (chunksGo fuel l).length := by
  intro fuel
  induction fuel with
  | zero => intro l i hl hi; omega
  | succ fuel ih =>
    intro l i hl hi
    cases l with
    | nil => simp at hi
    | cons x xs =>
      cases i with
      | zero => simp [chunksGo]
      | succ j =>
        have hlen : ((x :: xs).drop 2000).length ≤ fuel := by
          simp only [List.length_drop, List.length_cons]
          simp only [List.length_cons] at hl
          omega
        have hj : 2000 * j < ((x :: xs).drop 2000).length := by
          simp only [List.length_drop, List.length_cons]
          simp only [List.length_cons] at hi
          have : 2000 * (j + 1) = 2000 * j + 2000 := by ring
          omega
        have := ih ((x :: xs).drop 2000) j hlen hj
        simp only [chunksGo, List.length_cons]
        omega

theorem chunkBatches_lt_length (l : List α) (i : Nat) (hi : 2000 * i < l.length) :
    i < (chunkBatches l).length :=
  chunksGo_lt_length l.length l i (Nat.le_refl _) hi

theorem mem_getD_mem_flatten {L : List (List α)} {i : Nat} {x : α}
    (hi : i < L.length) (hx : x ∈ L.getD i []) : x ∈ L.flatten := by
  induction L generalizing i with
  | nil => simp at hi
  | cons c rest ih =>
    cases i with
    | zero =>
      simp only [List.getD_cons_zero] at hx
      simp only [List.flatten_cons, List.mem_append]
      exact Or.inl hx
    | succ j =>
      simp only [List.getD_cons_succ] at hx
      have hj : j < rest.length := by simp only [List.length_cons] at hi; omega
      simp only [List.flatten_cons, List.mem_append]
      exact Or.inr (ih hj hx)

theorem runBatches_processed_subset (pipeline : String → Option ρ) :
    ∀ (chunks : List (List String)) (fs : Nat → Option (List (String × ρ)))
      (part : Nat) (k : String),
      k ∈ (runBatches pipeline fs chunks part).processed → k ∈ chunks.flatten := by
  intro chunks
  induction chunks with
  | nil => intro fs part k hk; simp [runBatches] at hk
  | cons chunk rest ih =>
    intro fs part k hk
    simp only [runBatches] at hk
    simp only [List.flatten_cons, List.mem_append]
    cases hfs : fs part with
    | some existing =>
      rw [hfs] at hk
      simp only at hk
      exact Or.inr (ih _ _ k hk)
    | none =>
      rw [hfs] at hk
      simp only [List.mem_append] at hk
      rcases hk with hk | hk
      · exact Or.inl hk
      · exact Or.inr (ih _ _ k hk)

theorem runBatches_files_lt (pipeline : String → Option ρ) :
    ∀ (chunks : List (List String)) (fs : Nat → Option (List (String × ρ)))
      (part m : Nat), m < part →
      (runBatches pipeline fs chunks part).files m = fs m := by
  intro chunks
  induction chunks with
  | nil => intro fs part m _; simp [runBatches]
  | cons chunk rest ih =>
    intro fs part m hm
    simp only [runBatches]
    cases hfs : fs part with
    | some existing =>
      exact ih fs (part + 1) m (by omega)
    | none =>
      have := ih (fun n => if n = part then some (processBatch pipeline chunk) else fs n)
        (part + 1) m (by omega)
      simp only at this ⊢
      rw [this, if_neg (by omega)]

theorem runBatches_files_at (pipeline : String → Option ρ) :
    ∀ (chunks : List (List String)) (fs : Nat → Option (List (String × ρ)))
      (part i : Nat), i < chunks.length →
      (runBatches pipeline fs chunks part).files (part + i) =
        some ((fs (part + i)).getD (processBatch pipeline (chunks.getD i []))) := by
  intro chunks
  induction chunks with
  | nil => intro fs part i hi; simp at hi
  | cons chunk rest ih =>
    intro fs part i hi
    simp only [runBatches]
    cases i with
    | zero =>
      simp only [Nat.add_zero, List.getD_cons_zero]
      cases hfs : fs part with
      | some existing =>
        have hstab := runBatches_files_lt pipeline rest fs (part + 1) part (by omega)
        simp only [hstab, hfs, Option.getD_some]
      | none =>
        have hstab := runBatches_files_lt pipeline rest
          (fun n => if n = part then some (processBatch pipeline chunk) else fs n)
          (part + 1) part (by omega)
        simp only [hstab]
        simp
    | succ j =>
      have hj : j < rest.length := by simp only [List.length_cons] at hi; omega
      have harith : part + (j + 1) = (part + 1) + j := by omega
      simp only [List.getD_cons_succ, harith]
      cases hfs : fs part with
      | some existing =>
        exact ih fs (part + 1) j hj
      | none =>
        have hrec := ih
          (fun n => if n = part then some (processBatch pipeline chunk) else fs n)
          (part + 1) j hj
        simp only at hrec ⊢
        rw [hrec, if_neg (by omega)]

/-- Core resume lemma: a slice whose part file exists in `fs` when the loop
reaches it is skipped — none of its keys is handed to the pipeline, and its
on-disk records all end up in the merged results. -/
theorem runBatches_skip (pipeline : String → Option ρ) :
    ∀ (chunks : List (List String)) (fs : Nat → Option (List (String × ρ)))
      (part i : Nat) (ex : List (String × ρ)),
      chunks.flatten.Nodup → i < chunks.length → fs (part + i) = some ex →
      (∀ k ∈ chunks.getD i [], k ∉ (runBatches pipeline fs chunks part).processed) ∧
      (∀ r ∈ ex, r ∈ (runBatches pipeline fs chunks part).results) := by
  intro chunks
  induction chunks with
  | nil => intro fs part i ex _ hi _; simp at hi
  | cons chunk rest ih =>
    intro fs part i ex hnd hi hex
    have hnd' : rest.flatten.Nodup := by
      simp only [List.flatten_cons] at hnd
      exact hnd.of_append_right
    simp only [runBatches]
    cases i with
    | zero =>
      simp only [Nat.add_zero] at hex
      simp only [List.getD_cons_zero]
      rw [hex]
      constructor
      · intro k hk hmem
        simp only at hmem
        have hkr : k ∈ rest.flatten :=
          runBatches_processed_subset pipeline rest fs (part + 1) k hmem
        simp only [List.flatten_cons] at hnd
        exact (List.disjoint_of_nodup_append hnd) hk hkr
      · intro r hr
        simp only [List.mem_append]
        exact Or.inl hr
    | succ j =>
      have hj : j < rest.length := by simp only [List.length_cons] at hi; omega
      have harith : part + (j + 1) = (part + 1) + j := by omega
      rw [harith] at hex
      simp only [List.getD_cons_succ]
      cases hfs : fs part with
      | some existing =>
        have hrec := ih fs (part + 1) j ex hnd' hj hex
        constructor
        · intro k hk hmem
          simp only at hmem
          exact hrec.1 k hk hmem
        · intro r hr
          simp only [List.mem_append]
          exact Or.inr (hrec.2 r hr)
      | none =>
        have hex' : (fun n => if n = part then some (processBatch pipeline chunk) else fs n)
            ((part + 1) + j) = some ex := by
          simp only [if_neg (by omega : ¬ (part + 1) + j = part)]
          exact hex
        have hrec := ih
          (fun n => if n = part then some (processBatch pipeline chunk) else fs n)
          (part + 1) j ex hnd' hj hex'
        constructor
        · intro k hk hmem
          simp only [List.mem_append] at hmem
          rcases hmem with hmem | hmem
          · have hkr : k ∈ rest.flatten := mem_getD_mem_flatten hj hk
            simp only [List.flatten_cons] at hnd
            exact (List.disjoint_of_nodup_append hnd) hmem hkr
          · exact hrec.1 k hk hmem
        · intro r hr
          simp only [List.mem_append]
          exact Or.inr (hrec.2 r hr)

theorem processBatch_mem (pipeline : String → Option ρ) (chunk : List String)
    (k : String) (r : ρ) :
    (k, r) ∈ processBatch pipeline chunk ↔ k ∈ chunk ∧ pipeline k = some r := by
  simp only [processBatch, List.mem_filterMap, Option.map_eq_some']
  constructor
  · rintro ⟨a, ha, v, hv, heq⟩
    obtain ⟨rfl, rfl⟩ : a = k ∧ v = r := by simpa [Prod.ext_iff] using heq
    exact ⟨ha, hv⟩
  · rintro ⟨hk, hr⟩
    exact ⟨k, hk, r, hr, rfl⟩

/-- C1.  Idempotent resume: `main` sorts the full key list, cuts it into
slices of 2000 with part numbers `1 + i` increasing with the slice index `i`,
and a slice whose part file already exists on disk at the start of the run is
skipped — none of its keys is handed to the pipeline — while the file's
records are loaded into the merged results; every slice ends up with a part
file. -/
theorem c1_idempotent_resume {ρ : Type} (pipeline : String → Option ρ)
    (fs : Nat → Option (List (String × ρ))) (keys : List String) (i : Nat)
    (ex : List (String × ρ)) (hnd : keys.Nodup)
    (hi : 2000 * i < (sortedKeys keys).length) (hex : fs (1 + i) = some ex) :
    List.Sorted (fun a b => keyLe a b = true) (sortedKeys keys) ∧
    (sortedKeys keys).Perm keys ∧
    (chunkBatches (sortedKeys keys)).flatten = sortedKeys keys ∧
    (∀ j, ((chunkBatches (sortedKeys keys)).getD j []).length =
        min 2000 ((sortedKeys keys).length - 2000 * j)) ∧
    (∀ k ∈ (chunkBatches (sortedKeys keys)).getD i [],
        k ∉ (mainRun pipeline fs keys).processed) ∧
    (∀ r ∈ ex, r ∈ (mainRun pipeline fs keys).results) ∧
    (∀ j, 2000 * j < (sortedKeys keys).length →
        ((mainRun pipeline fs keys).files (1 + j)).isSome = true) := by
  have hperm : (sortedKeys keys).Perm keys := List.perm_insertionSort _ keys
  have hnd' : (sortedKeys keys).Nodup := hperm.nodup_iff.mpr hnd
  have hflat : (chunkBatches (sortedKeys keys)).flatten = sortedKeys keys :=
    chunkBatches_join _
  have hlen : i < (chunkBatches (sortedKeys keys)).length :=
    chunkBatches_lt_length _ i hi
  have hskip := runBatches_skip pipeline (chunkBatches (sortedKeys keys)) fs 1 i ex
    (by rw [hflat]; exact hnd') hlen (by simpa using hex)
  refine ⟨List.sorted_insertionSort _ keys, hperm, hflat, ?_, ?_, ?_, ?_⟩
  · intro j
    rw [chunkBatches_getD]
    simp [List.length_take, List.length_drop]
  · intro k hk
    simpa [mainRun] using hskip.1 k hk
  · intro r hr
    simpa [mainRun] using hskip.2 r hr
  · intro j hj
    have hjl : j < (chunkBatches (sortedKeys keys)).length :=
      chunkBatches_lt_length _ j hj
    have := runBatches_files_at pipeline (chunkBatches (sortedKeys keys)) fs 1 j hjl
    simp only [mainRun]
    rw [this]
    rfl

theorem c1_idempotent_resume_witness :
    (∀ k ∈ (chunkBatches (sortedKeys ["b", "a", "c"])).getD 0 [],
        k ∉ (mainRun (fun _ => some 0)
          (fun n => if n = 1 then some [("z", 5)] else none) ["b", "a", "c"]).processed) ∧
    (∀ r ∈ [("z", 5)], r ∈ (mainRun (fun _ => some (0 : Nat))
        (fun n => if n = 1 then some [("z", 5)] else none) ["b", "a", "c"]).results) := by
  have h := c1_idempotent_resume (fun _ => some (0 : Nat))
    (fun n => if n = 1 then some [("z", 5)] else none) ["b", "a", "c"] 0 [("z", 5)]
    (by decide) (by decide) (by decide)
  exact ⟨h.2.2.2.2.1, h.2.2.2.2.2.1⟩

/-- C2.  The batch save of `main` (lines 333-336) opens the final part-file
path directly and streams `json.dump` into it: among the observable states of
the part file during the write there is one where the file exists with a
strict prefix (here the empty prefix and the prefix `"a"`) of the final
content — a reader can observe a partially written batch file, contradicting
the claimed write-to-temp-then-atomic-rename protocol, whose only observable
states would be `atomicWriteStates` (absent or complete). -/
theorem c2_direct_write_partial_state :
    some "" ∈ writeStates "ab" ∧ some "a" ∈ writeStates "ab" ∧
    ("a" : String) ≠ "ab" ∧
    (writeStates "ab").getLast? = some (some "ab") ∧
    some "a" ∉ atomicWriteStates "ab" := by decide

/-- C4.  Failure containment inside one processed batch: the batch's part
file holds exactly the successful documents — a key whose pipeline outcome is
`none` (exception/second timeout) is absent, every successful sibling is
present with its result — and the run completes: every slice of the run gets
a part file (the loop is never aborted by a failed document). -/
theorem c4_failure_containment {ρ : Type} (pipeline : String → Option ρ)
    (fs : Nat → Option (List (String × ρ))) (keys : List String) (i : Nat)
    (hfs : fs (1 + i) = none) (hi : 2000 * i < (sortedKeys keys).length) :
    ((mainRun pipeline fs keys).files (1 + i) =
        some (processBatch pipeline ((chunkBatches (sortedKeys keys)).getD i []))) ∧
    (∀ k ∈ (chunkBatches (sortedKeys keys)).getD i [],
        (pipeline k = none →
          ∀ r, (k, r) ∉ processBatch pipeline ((chunkBatches (sortedKeys keys)).getD i [])) ∧
        (∀ r, pipeline k = some r →
          (k, r) ∈ processBatch pipeline ((chunkBatches (sortedKeys keys)).getD i []))) ∧
    (∀ j, 2000 * j < (sortedKeys keys).length →
        ((mainRun pipeline fs keys).files (1 + j)).isSome = true) := by
  have hlen : i < (chunkBatches (sortedKeys keys)).length :=
    chunkBatches_lt_length _ i hi
  refine ⟨?_, ?_, ?_⟩
  · have := runBatches_files_at pipeline (chunkBatches (sortedKeys keys)) fs 1 i hlen
    simp only [mainRun]
    rw [this, hfs]
    rfl
  · intro k hk
    constructor
    · intro hnone r hmem
      have := (processBatch_mem pipeline _ k r).mp hmem
      rw [hnone] at this
      exact Option.noConfusion this.2
    · intro r hr
      exact (processBatch_mem pipeline _ k r).mpr ⟨hk, hr⟩
  · intro j hj
    have hjl : j < (chunkBatches (sortedKeys keys)).length :=
      chunkBatches_lt_length _ j hj
    have := runBatches_files_at pipeline (chunkBatches (sortedKeys keys)) fs 1 j hjl
    simp only [mainRun]
    rw [this]
    rfl

theorem c4_failure_containment_witness :
    (((mainRun (fun k => if k = "doc3" then none else some 1)
        (fun _ => none) ["doc1", "doc2", "doc3", "doc4", "doc5"]).files (1 + 0) =
      some (processBatch (fun k => if k = "doc3" then none else some 1)
        ((chunkBatches (sortedKeys ["doc1", "doc2", "doc3", "doc4", "doc5"])).getD 0 []))) ∧
      (∀ r : Nat, ("doc3", r) ∉ processBatch (fun k => if k = "doc3" then none else some 1)
        ((chunkBatches (sortedKeys ["doc1", "doc2", "doc3", "doc4", "doc5"])).getD 0 []))) ∧
    (processBatch (fun k => if k = "doc3" then none else some (1 : Nat))
        ((chunkBatches (sortedKeys ["doc1", "doc2", "doc3", "doc4", "doc5"])).getD 0 [])).length = 4 := by
  have h := c4_failure_containment (fun k => if k = "doc3" then none else some (1 : Nat))
    (fun _ => none) ["doc1", "doc2", "doc3", "doc4", "doc5"] 0 (by decide) (by decide)
  refine ⟨⟨h.1, ?_⟩, by decide⟩
  exact (h.2.1 "doc3" (by decide)).1 (by decide)

/-- C5.  Timeout-retry in `process_single_file_sync`: the per-document
timeout constant is 300 seconds; the pipeline is invoked at most twice for a
document; a first-attempt timeout leads to exactly one more invocation; two
timeouts record the document as failed (`none`, dropped from the batch
output); a retry that succeeds records the result after exactly two
invocations. -/
theorem c5_timeout_retry {ρ : Type} (behave : Nat → AttemptResult ρ) :
    timeout_per_file = 300 ∧
    (process_single_file_sync behave).2 ≤ 2 ∧
    (behave 0 = AttemptResult.timeout → (process_single_file_sync behave).2 = 2) ∧
    (behave 0 = AttemptResult.timeout → behave 1 = AttemptResult.timeout →
      process_single_file_sync behave = (none, 2)) ∧
    (∀ r, behave 0 = AttemptResult.timeout → behave 1 = AttemptResult.ok r →
      process_single_file_sync behave = (some r, 2)) := by
  refine ⟨rfl, ?_, ?_, ?_, ?_⟩
  · cases h0 : behave 0 <;> cases h1 : behave 1 <;>
      simp [process_single_file_sync, h0, h1]
  · intro h0
    cases h1 : behave 1 <;> simp [process_single_file_sync, h0, h1]
  · intro h0 h1
    simp [process_single_file_sync, h0, h1]
  · intro r h0 h1
    simp [process_single_file_sync, h0, h1]

theorem c5_timeout_retry_witness :
    process_single_file_sync
        (fun a => if a = 0 then AttemptResult.timeout else AttemptResult.ok 7) =
      (some 7, 2) ∧
    process_single_file_sync (fun _ => (AttemptResult.timeout : AttemptResult Nat)) =
      (none, 2) := by
  refine ⟨?_, ?_⟩
  · exact (c5_timeout_retry
      (fun a => if a = 0 then AttemptResult.timeout else AttemptResult.ok 7)).2.2.2.2
      7 (by decide) (by decide)
  · exact (c5_timeout_retry
      (fun _ => (AttemptResult.timeout : AttemptResult Nat))).2.2.2.1 rfl rfl

/-! ## `utils/embedding.py` — `clean_html_tags` (lines 21-23)

```
table_pattern = re.compile(r'</?(?:table|tr|td|th|thead|tbody|tfoot)\b[^>]*>', re.IGNORECASE)
return table_pattern.sub(' ', text)
```

The scanner below is the regex's matching semantics at one position:
`<`, an optional `/`, one of the seven tag names case-insensitively with a
word boundary after it (at most one name can match with a boundary, since
`th`/`thead` are the only prefix-related pair and the boundary separates
them), then `[^>]*>` — i.e. everything up to and including the first `>`.
`re.sub` walks the string left to right replacing every non-overlapping match
with one space. -/

/-- A word character for the regex word boundary `\b` (ASCII model of `\w`). -/
def isWordChar (c : Char) : Bool := c.isAlphanum || c = '_'

/-- Match the literal (lowercase) pattern `p` case-insensitively at the head
of `cs`; returns the rest on success. -/
def matchCI : List Char → List Char → Option (List Char)
  | [], cs => some cs
  | _ :: _, [] => none
  | p :: ps, c :: cs => if c.toLower = p then matchCI ps cs else none

/-- The word boundary `\b` after a tag name: next char (if any) not a word
character. -/
def boundaryOk : List Char → Bool
  | [] => true
  | c :: _ => !(isWordChar c)

/-- The alternation `table|tr|td|th|thead|tbody|tfoot`, in the pattern's
order. -/
def tagNames : List (List Char) :=
  [['t', 'a', 'b', 'l', 'e'], ['t', 'r'], ['t', 'd'], ['t', 'h'],
   ['t', 'h', 'e', 'a', 'd'], ['t', 'b', 'o', 'd', 'y'],
   ['t', 'f', 'o', 'o', 't']]

def nameMatchGo : List (List Char) → List Char → Option (List Char)
  | [], _ => none
  | nm :: nms, cs =>
    match matchCI nm cs with
    | some rest => if boundaryOk rest then some rest else nameMatchGo nms cs
    | none => nameMatchGo nms cs

/-- One of the tag names, case-insensitively, with a word boundary after. -/
def nameMatch (cs : List Char) : Option (List Char) := nameMatchGo tagNames cs

/-- `[^>]*>`: consume up to and including the first `>`; fails when there is
no `>` left. -/
def afterGt (cs : List Char) : Option (List Char) :=
  match cs.dropWhile (fun c => c != '>') with
  | [] => none
  | _ :: rest => some rest

/-- The optional `/` of `</?`. -/
def stripSlash (cs : List Char) : List Char :=
  match cs with
  | [] => []
  | c :: r => if c = '/' then r else cs

/-- The whole tag pattern matched at the head of `cs`: returns the rest of
the string after the match. -/
def tagMatch (cs : List Char) : Option (List Char) :=
  match cs with
  | [] => none
  | c :: cs1 =>
    if c = '<' then
      match nameMatch (stripSlash cs1) with
      | some rest => afterGt rest
      | none => none
    else none

/-- Does any suffix of `cs` start with a tag match — i.e. does a table tag
occur anywhere in `cs`? -/
def hasTagL : List Char → Bool
  | [] => false
  | c :: rest => (tagMatch (c :: rest)).isSome || hasTagL rest

/-- `re.sub` scanning: at each position either replace a match with one space
and continue after it, or emit the character and move on.  `fuel ≥ length`
always suffices (a match consumes at least one character). -/
def cleanGo : Nat → List Char → List Char
  | 0, _ => []
  | _ + 1, [] => []
  | fuel + 1, c :: rest =>
    match tagMatch (c :: rest) with
    | some after => ' ' :: cleanGo fuel after
    | none => c :: cleanGo fuel rest

def clean_html_tags (s : String) : String := ⟨cleanGo s.data.length s.data⟩

/-! ## `offline_indexer.py` line 73 — repeat collapsing

`re.sub(r"(.+?)\1{20,}", lambda m: m.group(1), text)`: at each position, the
lazy group tries the shortest length `L ≥ 1` (never containing a newline,
since `.` does not match `\n`) such that the captured unit is followed by at
least 20 further copies; the greedy `{20,}` then consumes every following
copy, and the whole match is replaced by the unit alone. -/

/-- How many consecutive copies of `g` sit at the head of `cs`. -/
def countRepsGo (g : List Char) : Nat → List Char → Nat
  | 0, _ => 0
  | fuel + 1, cs =>
    if (!g.isEmpty) && g.isPrefixOf cs then
      countRepsGo g fuel (cs.drop g.length) + 1
    else 0

def countReps (g cs : List Char) : Nat := countRepsGo g cs.length cs

/-- Try the capture length `L` at this position: unit `g = cs[0:L]` must be
full-length, newline-free, and followed by at least 20 more copies; the match
then covers `g` and every following copy. -/
def tryL (cs : List Char) (L : Nat) : Option (List Char × List Char) :=
  let g := cs.take L
  if g.length = L ∧ 0 < L ∧ '\n' ∉ g then
    if 20 ≤ countReps g (cs.drop L) then
      some (g, cs.drop (L * (countReps g (cs.drop L) + 1)))
    else none
  else none

/-- Lazy `(.+?)`: try `L = 1, 2, …` in order (`L ≤ length / 21` is needed for
20 further copies to fit). -/
def findFrom (cs : List Char) : Nat → Nat → Option (List Char × List Char)
  | _, 0 => none
  | L, bound + 1 =>
    match tryL cs L with
    | some r => some r
    | none => findFrom cs (L + 1) bound

def findMatch (cs : List Char) : Option (List Char × List Char) :=
  findFrom cs 1 (cs.length / 21)

/-- `re.sub` scanning for the repeat pattern: replace each match by its unit,
else move one character on. -/
def collapseGo : Nat → List Char → List Char
  | 0, _ => []
  | _ + 1, [] => []
  | fuel + 1, c :: rest =>
    match findMatch (c :: rest) with
    | some (g, after) => g ++ collapseGo fuel after
    | none => c :: collapseGo fuel rest

def collapseRepeats (s : String) : String := ⟨collapseGo s.data.length s.data⟩

/-- Python `str.strip()` (over the ASCII whitespace the texts use). -/
def pyStrip (s : String) : String :=
  ⟨((s.data.dropWhile Char.isWhitespace).reverse.dropWhile Char.isWhitespace).reverse⟩

/-- Line 73 of `offline_indexer.py`, applied to each page:
`clean_html_tags(re.sub(r"(.+?)\1{20,}", …, text)) if text and text.strip()
else ""`. -/
def normalizePage (text : String) : String :=
  if text.data = [] ∨ (pyStrip text).data = [] then ""
  else clean_html_tags (collapseRepeats text)

/-! ## `utils/embedding.py` — `normalize_embedding` / `get_embedding`

Vectors are embedded as lists of real numbers (the idealisation of the
float64 arithmetic `numpy` performs). -/

/-- `np.linalg.norm`: the Euclidean norm. -/
noncomputable def norm2 (v : List ℝ) : ℝ :=
  Real.sqrt ((v.map (fun x => x ^ 2)).sum)

/-- `normalize_embedding` (lines 12-18): a vector of norm 0 is returned
unchanged, anything else is divided componentwise by its norm. -/
noncomputable def normalize_embedding (v : List ℝ) : List ℝ :=
  if norm2 v = 0 then v else v.map (fun x => x / norm2 v)

/-- `get_embedding` (lines 26-37) with the HTTP backend abstracted: an empty
input list short-circuits to `[]` *before* any client is created (the `Bool`
records whether the backend was called); otherwise the texts are cleaned,
sent to the backend, and every returned vector is normalised. -/
noncomputable def get_embedding (backend : List String → List (List ℝ))
    (text : List String) : List (List ℝ) × Bool :=
  if text = [] then ([], false)
  else ((backend (text.map clean_html_tags)).map normalize_embedding, true)

theorem sum_sq_nonneg (v : List ℝ) : 0 ≤ (v.map (fun x => x ^ 2)).sum := by
  apply List.sum_nonneg
  intro y hy
  obtain ⟨x, _, rfl⟩ := List.mem_map.mp hy
  positivity

/-- C8.  Dense-embedding postprocessing: a vector of non-zero Euclidean norm
is divided componentwise by its norm and the result has norm exactly 1; a
vector of norm zero is returned unchanged (no division happens, no error);
and `get_embedding` on an empty list of strings returns the empty result
without calling the backend. -/
theorem c8_embedding_normalization (v : List ℝ) (backend : List String → List (List ℝ)) :
    (norm2 v ≠ 0 →
      normalize_embedding v = v.map (fun x => x / norm2 v) ∧
      norm2 (normalize_embedding v) = 1) ∧
    (norm2 v = 0 → normalize_embedding v = v) ∧
    get_embedding backend [] = ([], false) := by
  refine ⟨?_, ?_, ?_⟩
  · intro hne
    have hdef : normalize_embedding v = v.map (fun x => x / norm2 v) := by
      rw [normalize_embedding, if_neg hne]
    refine ⟨hdef, ?_⟩
    have hS : 0 ≤ (v.map (fun x => x ^ 2)).sum := sum_sq_nonneg v
    have hn2 : norm2 v ^ 2 = (v.map (fun x => x ^ 2)).sum := Real.sq_sqrt hS
    have hSne : (v.map (fun x => x ^ 2)).sum ≠ 0 := by
      intro h
      exact hne (by rw [norm2, h, Real.sqrt_zero])
    rw [hdef, norm2, List.map_map]
    have hfun : ((fun x => x ^ 2) ∘ fun x => x / norm2 v) =
        fun x => x ^ 2 * (norm2 v ^ 2)⁻¹ := by
      funext x
      simp only [Function.comp, div_eq_mul_inv, mul_pow, inv_pow]
    rw [hfun]
    have hsum : (v.map (fun x => x ^ 2 * (norm2 v ^ 2)⁻¹)).sum =
        (v.map (fun x => x ^ 2)).sum * (norm2 v ^ 2)⁻¹ :=
      List.sum_map_mul_right v (fun x => x ^ 2) (norm2 v ^ 2)⁻¹
    rw [hsum, hn2, mul_inv_cancel₀ hSne, Real.sqrt_one]
  · intro hz
    rw [normalize_embedding, if_pos hz]
  · rfl

theorem c8_embedding_normalization_witness :
    norm2 [(3 : ℝ), 4] ≠ 0 ∧
    norm2 (normalize_embedding [(3 : ℝ), 4]) = 1 ∧
    get_embedding (fun _ => []) [] = ([], false) := by
  have h5 : norm2 [(3 : ℝ), 4] = 5 := by
    rw [norm2]
    have h25 : (([(3 : ℝ), 4].map (fun x => x ^ 2)).sum) = 25 := by norm_num
    rw [h25]
    rw [show (25 : ℝ) = 5 ^ 2 by norm_num, Real.sqrt_sq (by norm_num : (0:ℝ) ≤ 5)]
  have hne : norm2 [(3 : ℝ), 4] ≠ 0 := by rw [h5]; norm_num
  have h := c8_embedding_normalization [(3 : ℝ), 4] (fun _ => [])
  exact ⟨hne, (h.1 hne).2, h.2.2⟩

/-! ## `utils/lang_detect.py`

`LangDetector.detect` with its defaults: clean the text with the
`remove_characters` class, count per character which script pattern matches
(`zh` = `[一-鿿]`, `en` = `[a-zA-Z]`), attribute unmatched characters
to the default language `en`, build `[lang, count/len]` entries for the
scripts with positive count (in dict order `zh`, `en`), and stable-sort them
by share descending.  `detect_language` then joins the characters of its
argument with newlines, runs the detector, and answers `"Chinese"` iff the
top entry is `zh`, or the second entry is `zh` with share above `0.2`. -/

/-- The `zh` pattern `[一-鿿]` applied to one character. -/
def zhChar (c : Char) : Bool :=
  decide (0x4e00 ≤ c.toNat) && decide (c.toNat ≤ 0x9fff)

/-- The `en` pattern `[a-zA-Z]` applied to one character. -/
def enChar (c : Char) : Bool :=
  (decide (97 ≤ c.toNat) && decide (c.toNat ≤ 122)) ||
  (decide (65 ≤ c.toNat) && decide (c.toNat ≤ 90))

/-- The characters of the `remove_characters` class (the class also contains
`0-9`, handled by the range check in `removeChar`).  Note it contains the
newline and the tab — the literal spans two lines — but **no space**. -/
def removeCharsList : List Char :=
  ['’', '·', '°', '–', '!', '"', '#', '$', '%', '&', Char.ofNat 39, '(', ')',
   '*', '+', ',', '-', '.', '/', ':', ';', '<', '=', '>', '?', '@', '，', '。',
   '★', '、', '\n', '\t', '…', '【', '】', '（', '）', '《', '》', '？', '“',
   '”', '‘', '！', '[', Char.ofNat 92, ']', '^', '_', Char.ofNat 96,
   Char.ofNat 123, '|', Char.ofNat 125, '~']

def removeChar (c : Char) : Bool :=
  removeCharsList.contains c || (decide (48 ≤ c.toNat) && decide (c.toNat ≤ 57))

/-- `cleaning_text`: `re.sub(remove_characters, "", text)`. -/
def cleaning_text (cs : List Char) : List Char :=
  cs.filter (fun c => !(removeChar c))

def zhCount (cs : List Char) : Nat := cs.countP (fun c => zhChar c)

def enCount (cs : List Char) : Nat := cs.countP (fun c => enChar c)

/-- Characters matched by neither pattern (attributed to the default
language `en`). -/
def unknownCount (cs : List Char) : Nat :=
  cs.countP (fun c => !(zhChar c) && !(enChar c))

/-- A share `count / len`, kept as an exact fraction pair (the idealisation
of the float division Python performs). -/
abbrev Share := Nat × Nat

/-- `x ≤ y` on shares, by cross-multiplication (denominators are positive
whenever an entry exists). -/
def shareLe (x y : Share) : Bool := decide (x.1 * y.2 ≤ y.1 * x.2)

/-- `x < y` on shares. -/
def shareLt (x y : Share) : Bool := decide (x.1 * y.2 < y.1 * x.2)

/-- Stable insertion for `sort(key=share, reverse=True)`: descending, equal
shares keep their original (dict) order. -/
def insertDesc (x : String × Share) : List (String × Share) → List (String × Share)
  | [] => [x]
  | y :: ys => if shareLe y.2 x.2 then x :: y :: ys else y :: insertDesc x ys

def sortLangPairs : List (String × Share) → List (String × Share)
  | [] => []
  | x :: xs => insertDesc x (sortLangPairs xs)

/-- `LangDetector().detect(text)` with the default flags. -/
def LangDetector_detect (cs : List Char) : List (String × Share) :=
  let cleaned := cleaning_text cs
  let zh := zhCount cleaned
  let en := enCount cleaned + unknownCount cleaned
  let len := cleaned.length
  sortLangPairs
    ((if 0 < zh then [("zh", (zh, len))] else []) ++
     (if 0 < en then [("en", (en, len))] else []))

/-- `"\n".join(text)` for a *string* `text`: the characters interleaved with
newlines. -/
def interNL : List Char → List Char
  | [] => []
  | [c] => [c]
  | c :: d :: rest => c :: '\n' :: interNL (d :: rest)

/-- `detect_language` (lines 85-94); `0.2` is the exact share `1 / 5`. -/
def detect_language (s : String) : String :=
  let lang := LangDetector_detect (interNL s.data)
  if 0 < lang.length ∧ ((lang.getD 0 ("", 0, 0)).1 = "zh" ∨
      (1 < lang.length ∧ (lang.getD 1 ("", 0, 0)).1 = "zh" ∧
        shareLt (1, 5) (lang.getD 1 ("", 0, 0)).2 = true))
  then "Chinese" else "English"

/-- The claim's own reading of the detector, written from the claim's words
(for refutation): strip punctuation, digits **and whitespace**, attribute
every remaining non-Chinese character to English, then: Chinese exactly when
the Chinese count is the plurality, or is second with share above 20%. -/
def claimChinese (s : String) : Prop :=
  let cleaned := s.data.filter (fun c => !(removeChar c) && !(c.isWhitespace))
  let zh := zhCount cleaned
  let en := cleaned.length - zh
  0 < zh ∧ (en < zh ∨ cleaned.length < 5 * zh)

instance (s : String) : Decidable (claimChinese s) := by
  unfold claimChinese; infer_instance

theorem zh_not_en {c : Char} (h : zhChar c = true) : ¬ enChar c = true := by
  simp only [zhChar, Bool.and_eq_true, decide_eq_true_eq] at h
  simp only [enChar, Bool.or_eq_true, Bool.and_eq_true, decide_eq_true_eq]
  omega

theorem len_split (cs : List Char) :
    cs.length = zhCount cs + (enCount cs + unknownCount cs) := by
  induction cs with
  | nil => rfl
  | cons c cs ih =>
    simp only [List.length_cons, zhCount, enCount, unknownCount,
      List.countP_cons] at ih ⊢
    by_cases hz : zhChar c = true
    · have hne : ¬ enChar c = true := zh_not_en hz
      simp only [Bool.not_eq_true] at hne
      simp [hz, hne]
      omega
    · simp only [Bool.not_eq_true] at hz
      by_cases he : enChar c = true
      · simp [hz, he]
        omega
      · simp only [Bool.not_eq_true] at he
        simp [hz, he]
        omega

theorem share_le_share {a b l : Nat} (hl : 0 < l) :
    shareLe (b, l) (a, l) = true ↔ b ≤ a := by
  simp only [shareLe, decide_eq_true_eq]
  constructor
  · intro h
    exact Nat.le_of_mul_le_mul_right h hl
  · intro h
    exact Nat.mul_le_mul_right l h

theorem share_gt_fifth {zh l : Nat} :
    shareLt (1, 5) (zh, l) = true ↔ l < 5 * zh := by
  simp only [shareLt, decide_eq_true_eq]
  omega

theorem if_eq_chinese (c : Prop) [Decidable c] :
    ((if c then "Chinese" else "English") = "Chinese") ↔ c := by
  split_ifs with h
  · simp [h]
  · simp [h]

/-- C10 (amended).  `detect_language` returns `"Chinese"` exactly when, after
joining the sample's characters with newlines and stripping the
`remove_characters` class (punctuation, digits, newline and tab — but *not*
spaces, which are attributed to English like every other unmatched
character), the Chinese-character count is positive and either is at least
the English-attributed count (ties sort `zh` first) or exceeds a 20% share;
an empty sample yields `"English"` with no division-by-zero. -/
theorem c10_detect_language (s : String) :
    (detect_language s = "Chinese" ↔
      (0 < zhCount (cleaning_text (interNL s.data)) ∧
        (enCount (cleaning_text (interNL s.data)) +
            unknownCount (cleaning_text (interNL s.data)) ≤
            zhCount (cleaning_text (interNL s.data)) ∨
          (cleaning_text (interNL s.data)).length <
            5 * zhCount (cleaning_text (interNL s.data))))) ∧
    detect_language "" = "English" := by
  constructor
  · have hlen := len_split (cleaning_text (interNL s.data))
    simp only [detect_language, LangDetector_detect]
    set cs := cleaning_text (interNL s.data) with hcs
    set zh := zhCount cs with hzh
    set en := enCount cs + unknownCount cs with hen
    rw [if_eq_chinese]
    by_cases hz : 0 < zh
    · rw [if_pos hz]
      have hlpos : 0 < cs.length := by omega
      by_cases he : 0 < en
      · rw [if_pos he]
        simp only [List.cons_append, List.nil_append, sortLangPairs, insertDesc]
        by_cases hge : shareLe (en, cs.length) (zh, cs.length) = true
        · rw [if_pos hge]
          have hnum : en ≤ zh := (share_le_share hlpos).mp hge
          simp [hz, hnum]
        · rw [if_neg hge]
          have hnum : ¬ en ≤ zh := fun h => hge ((share_le_share hlpos).mpr h)
          simp [hz, hnum, share_gt_fifth]
      · rw [if_neg he]
        have he0 : en = 0 := by omega
        refine iff_of_true ?_ ⟨hz, Or.inl (show en ≤ zh by omega)⟩
        simp [List.nil_append, sortLangPairs, insertDesc]
    · rw [if_neg hz]
      have hz0 : ¬ 0 < zh := hz
      refine iff_of_false ?_ (fun h => hz0 h.1)
      by_cases he : 0 < en
      · rw [if_pos he]
        simp [List.nil_append, sortLangPairs, insertDesc]
      · rw [if_neg he]
        simp [sortLangPairs]
  · decide

/-- C10, the claim as frozen, refuted: `"中"` followed by ten spaces.  The
claim's model strips whitespace, leaving one Chinese character — plurality,
hence Chinese; the code keeps the spaces, attributes them to English
(1 zh vs 10 en, share 1/11 < 20%), and answers English. -/
theorem c10_counterexample :
    claimChinese "中          " ∧ detect_language "中          " = "English" := by
  constructor
  · decide
  · decide

/-! ## `offline_indexer.py` — `process_content` (lines 61-132)

`content` is first normalised per page (line 73), the language is detected on
the first five pages, one call produces the document summary, one call per
page `1..n-1` produces its context (issued through `asyncio.gather`, which
preserves order and re-raises the first exception), and the output list is
assembled.  `call sys user` is the backend-outcome list for the call with
those prompts. -/

/-- The context system prompt (lines 86-96). -/
def contextSysPrompt (lang : String) : String :=
  "Generate a concise contextual summary for the current page to enhance search retrieval. The summary should:\n1. Provide essential background information, key concepts and fitting conditions\n2. Highlight relationships with previous content\n3. Make the current page self-contained and understandable\n4. use " ++
  lang ++
  "\n\nRequirements:\n- Length: Maximum 100 words\n- Style: Clear, factual, and objective\n- Focus: Emphasize unique identifiers, technical terms, and critical details\n"

/-- The context user prompt for loop index `i` (lines 97-107): the window
`content[max(0, i - 2) : i + 1]` joined with newlines, then the current page
`content[i + 1]` (over `Nat`, `i - 2` *is* `max(0, i - 2)`). -/
def contextUserPrompt (file_summary : String) (content : List String) (i : Nat) :
    String :=
  "\nFile Summary: " ++ file_summary ++
  "\n\n============Previous Content============\n" ++
  joinSep "\n" (pySlice content (i - 2) (i + 1)) ++
  "\n\n============Current Page============\n" ++
  content.getD (i + 1) "" ++
  "\n\nPlease provide the context below:\n"

/-- The document-summary user prompt (line 80). -/
def summaryUserPrompt (file_name lang : String) (content : List String) : String :=
  "summary the file " ++ file_name ++ " in one sentence in " ++ lang ++
  ":\nFirst two pages:\n" ++ joinSep "\n" (content.take 2)

/-- `asyncio.gather` over one `Option`-valued call per element: all results
in order, or `none` as soon as any call raises. -/
def asyncGather (f : Nat → Option String) : List Nat → Option (List String)
  | [] => some []
  | i :: is =>
    match f i, asyncGather f is with
    | some x, some xs => some (x :: xs)
    | _, _ => none

/-- `process_content`.  `none` = the document raises (summary call raised,
some context call raised, or `content[0]` on an empty page list). -/
def process_content (call : String → String → List CallResult)
    (content0 : List String) (file_name : String) : Option (List String) :=
  let content := content0.map normalizePage
  let lang := detect_language (joinSep "\n" (content.take 5))
  match qwen_vl_predict (call "" (summaryUserPrompt file_name lang content)) with
  | none => none
  | some file_summary =>
    match asyncGather
        (fun i => qwen_vl_predict
          (call (contextSysPrompt lang) (contextUserPrompt file_summary content i)))
        (List.range (content.length - 1)) with
    | none => none
    | some context_list =>
      match content with
      | [] => none
      | c0 :: rest =>
        some (("file_summary: " ++ file_summary ++ "\n" ++ c0) ::
          (List.zip context_list rest).map
            (fun p => "file_summary: " ++ file_summary ++ "\ncontext: " ++ p.1 ++
              "\npage_content:\n" ++ p.2))

theorem asyncGather_length (f : Nat → Option String) :
    ∀ (l : List Nat) (res : List String), asyncGather f l = some res →
      res.length = l.length := by
  intro l
  induction l with
  | nil => intro res h; simp [asyncGather] at h; simp [← h]
  | cons i is ih =>
    intro res h
    simp only [asyncGather] at h
    cases hf : f i with
    | none => rw [hf] at h; simp at h
    | some x =>
      rw [hf] at h
      cases hg : asyncGather f is with
      | none => rw [hg] at h; simp at h
      | some xs =>
        rw [hg] at h
        simp only [Option.some.injEq] at h
        subst h
        simp [ih xs hg]

theorem asyncGather_getD (f : Nat → Option String) :
    ∀ (l : List Nat) (res : List String) (i : Nat), asyncGather f l = some res →
      i < l.length →
      ∃ x, f (l.getD i 0) = some x ∧ res.getD i "" = x := by
  intro l
  induction l with
  | nil => intro res i _ hi; simp at hi
  | cons a is ih =>
    intro res i h hi
    simp only [asyncGather] at h
    cases hf : f a with
    | none => rw [hf] at h; simp at h
    | some x =>
      rw [hf] at h
      cases hg : asyncGather f is with
      | none => rw [hg] at h; simp at h
      | some xs =>
        rw [hg] at h
        simp only [Option.some.injEq] at h
        subst h
        cases i with
        | zero => exact ⟨x, by simpa using hf, rfl⟩
        | succ j =>
          have hj : j < is.length := by simp only [List.length_cons] at hi; omega
          simpa using ih xs j hg hj

theorem asyncGather_none (f : Nat → Option String) :
    ∀ (l : List Nat) (i : Nat), i ∈ l → f i = none → asyncGather f l = none := by
  intro l
  induction l with
  | nil => intro i hi; cases hi
  | cons a is ih =>
    intro i hi hf
    simp only [asyncGather]
    rcases List.mem_cons.mp hi with rfl | hmem
    · rw [hf]
    · rw [ih i hmem hf]
      cases f a <;> rfl

theorem range_getD {n j : Nat} (h : j < n) : (List.range n).getD j 0 = j := by
  rw [List.getD_eq_getElem?_getD, List.getElem?_eq_getElem (by simpa using h)]
  simp

theorem zip_map_getD (F : String × String → String) :
    ∀ (as bs : List String) (j : Nat), j < as.length → j < bs.length →
      ((List.zip as bs).map F).getD j "" = F (as.getD j "", bs.getD j "") := by
  intro as
  induction as with
  | nil => intro bs j hja _; simp at hja
  | cons a as ih =>
    intro bs j hja hjb
    cases bs with
    | nil => simp at hjb
    | cons b bs =>
      cases j with
      | zero => simp [List.zip_cons_cons]
      | succ k =>
        simp only [List.zip_cons_cons, List.map_cons, List.getD_cons_succ]
        exact ih bs k (by simpa using Nat.lt_of_succ_lt_succ hja)
          (by simpa using Nat.lt_of_succ_lt_succ hjb)

/-- C3.  For every successfully processed document, the output list has
exactly the length of the input page list and preserves page order: element 0
is `"file_summary: " + summary + "\n"` followed by normalised page 0, and
element `i > 0` is `"file_summary: " + summary + "\ncontext: " + context_i +
"\npage_content:\n"` followed by normalised page `i`. -/
theorem c3_contextualized_pages (call : String → String → List CallResult)
    (content0 : List String) (file_name : String) (out : List String)
    (h : process_content call content0 file_name = some out) :
    out.length = content0.length ∧
    ∃ fs,
      qwen_vl_predict (call "" (summaryUserPrompt file_name
        (detect_language (joinSep "\n" ((content0.map normalizePage).take 5)))
        (content0.map normalizePage))) = some fs ∧
      out.getD 0 "" = "file_summary: " ++ fs ++ "\n" ++
        (content0.map normalizePage).getD 0 "" ∧
      ∀ i, 0 < i → i < content0.length →
        ∃ ctx,
          qwen_vl_predict (call
            (contextSysPrompt (detect_language (joinSep "\n"
              ((content0.map normalizePage).take 5))))
            (contextUserPrompt fs (content0.map normalizePage) (i - 1))) = some ctx ∧
          out.getD i "" = "file_summary: " ++ fs ++ "\ncontext: " ++ ctx ++
            "\npage_content:\n" ++ (content0.map normalizePage).getD i "" := by
  simp only [process_content] at h
  split at h
  · exact absurd h (by simp)
  · next fs hsum =>
    split at h
    · exact absurd h (by simp)
    · next ctxs hctx =>
      split at h
      · exact absurd h (by simp)
      · next c0 rest hcontent =>
        simp only [Option.some.injEq] at h
        subst h
        have hmaplen : (content0.map normalizePage).length = content0.length :=
          List.length_map _ _
        have hconlen : content0.length = rest.length + 1 := by
          rw [← hmaplen, hcontent]
          simp
        have hctxlen : ctxs.length = (content0.map normalizePage).length - 1 := by
          have := asyncGather_length _ _ _ hctx
          simpa using this
        refine ⟨?_, fs, hsum, ?_, ?_⟩
        · simp only [List.length_cons, List.length_map, List.length_zip]
          rw [hctxlen]
          simp only [hmaplen]
          omega
        · simp [hcontent]
        · intro i hi0 hin
          obtain ⟨j, rfl⟩ : ∃ j, i = j + 1 := ⟨i - 1, by omega⟩
          have hjr : j < rest.length := by omega
          have hjc : j < ctxs.length := by
            rw [hctxlen, hmaplen]; omega
          have hjrange : j < (List.range ((content0.map normalizePage).length - 1)).length := by
            simp [hmaplen]; omega
          obtain ⟨ctx, hfc, hget⟩ := asyncGather_getD _ _ _ j hctx hjrange
          rw [range_getD (by simp [hmaplen]; omega)] at hfc
          refine ⟨ctx, ?_, ?_⟩
          · simpa using hfc
          · simp only [List.getD_cons_succ]
            rw [zip_map_getD _ ctxs rest j hjc hjr, hget]
            have hrest : rest.getD j "" = (content0.map normalizePage).getD (j + 1) "" := by
              rw [hcontent]
              simp
            rw [hrest]

theorem c3_contextualized_pages_witness :
    process_content (fun _ _ => [CallResult.ok "S"]) ["x", "y"] "f" =
      some ["file_summary: S\nx", "file_summary: S\ncontext: S\npage_content:\ny"] ∧
    (["file_summary: S\nx",
      "file_summary: S\ncontext: S\npage_content:\ny"] : List String).length =
      (["x", "y"] : List String).length := by
  have h : process_content (fun _ _ => [CallResult.ok "S"]) ["x", "y"] "f" =
      some ["file_summary: S\nx", "file_summary: S\ncontext: S\npage_content:\ny"] := by
    decide
  exact ⟨h, (c3_contextualized_pages (fun _ _ => [CallResult.ok "S"]) ["x", "y"] "f"
    _ h).1⟩

theorem strContains_refl (s : String) : strContains s s :=
  List.infix_refl _

theorem strContains_append_right (a b t : String) (h : strContains a t) :
    strContains (a ++ b) t := by
  obtain ⟨x, y, hxy⟩ := h
  exact ⟨x, y ++ b.data, by simp [String.data_append, ← hxy, List.append_assoc]⟩

theorem strContains_append_left (a b t : String) (h : strContains b t) :
    strContains (a ++ b) t := by
  obtain ⟨x, y, hxy⟩ := h
  exact ⟨a.data ++ x, y, by simp [String.data_append, ← hxy, List.append_assoc]⟩

/-- C6.  For every page index `p` with `1 ≤ p ≤ N-1`, the per-page context
prompt contains the document summary, the (normalised) text of page `p`
itself, and the text of every page `j` with `max(0, p-2) ≤ j ≤ p` — the
claimed window.  (`content` here is the per-page normalised list that
`process_content` passes to `contextUserPrompt` with loop index `p - 1`; the
`Previous Content` section is `content[max(0, p-3) : p]` and the current page
appears separately, so all of pages `max(0, p-2) … p` occur in the prompt.) -/
theorem c6_context_window (fs : String) (content : List String) (p j : Nat)
    (hp1 : 1 ≤ p) (hp2 : p < content.length) (hj1 : p - 2 ≤ j) (hj2 : j ≤ p) :
    strContains (contextUserPrompt fs content (p - 1)) fs ∧
    strContains (contextUserPrompt fs content (p - 1)) (content.getD p "") ∧
    strContains (contextUserPrompt fs content (p - 1)) (content.getD j "") := by
  have hp : p - 1 + 1 = p := by omega
  have hfs : strContains (contextUserPrompt fs content (p - 1)) fs := by
    unfold contextUserPrompt
    exact strContains_append_right _ _ _ (strContains_append_right _ _ _
      (strContains_append_right _ _ _ (strContains_append_right _ _ _
        (strContains_append_right _ _ _ (strContains_append_left _ _ _
          (strContains_refl _))))))
  have hcur : strContains (contextUserPrompt fs content (p - 1))
      (content.getD p "") := by
    unfold contextUserPrompt
    rw [hp]
    exact strContains_append_right _ _ _ (strContains_append_left _ _ _
      (strContains_refl _))
  refine ⟨hfs, hcur, ?_⟩
  by_cases hjp : j = p
  · rw [hjp]; exact hcur
  · have hjlt : j < p := by omega
    have hmem : content.getD j "" ∈ pySlice content (p - 1 - 2) (p - 1 + 1) :=
      getD_mem_pySlice "" (by omega) (by omega) (by omega)
    have hjoin := @strContains_of_mem_joinSep "\n" (pySlice content (p - 1 - 2) (p - 1 + 1)) (content.getD j "") hmem
    unfold contextUserPrompt
    exact strContains_append_right _ _ _ (strContains_append_right _ _ _
      (strContains_append_right _ _ _ (strContains_append_left _ _ _ hjoin)))

theorem c6_context_window_witness :
    strContains (contextUserPrompt "S" ["a", "b", "c"] (2 - 1)) "S" ∧
    strContains (contextUserPrompt "S" ["a", "b", "c"] (2 - 1))
      ((["a", "b", "c"] : List String).getD 2 "") ∧
    strContains (contextUserPrompt "S" ["a", "b", "c"] (2 - 1))
      ((["a", "b", "c"] : List String).getD 0 "") :=
  c6_context_window "S" ["a", "b", "c"] 2 0 (by decide) (by decide) (by decide)
    (by decide)

/-- C7, the claim as frozen, refuted: with every backend call timing out at
the HTTP layer, `Model.__call__` catches the timeout and returns `""`
(lines 94-101 of `utils/open_api.py`), so the summary call and the per-page
context call both "fail" yet the document still produces a record — with the
empty string silently embedded as its summary and its context. -/
theorem c7_counterexample :
    Model_call CallResult.timeout = some "" ∧
    process_content (fun _ _ => [CallResult.timeout]) ["a", "b"] "f" =
      some ["file_summary: \na", "file_summary: \ncontext: \npage_content:\nb"] := by
  constructor
  · rfl
  · decide

/-- C7 (amended).  A model call that raises a genuine exception on every
backend is fatal to the whole document: if the document-summary call raises,
or any per-page context call raises, `process_content` produces no record at
all (no partial-document output).  However a call that *times out* at the
HTTP layer is caught inside `Model.__call__` and returns the empty string,
which is embedded into the record (first conjunct). -/
theorem c7_failed_calls (call : String → String → List CallResult)
    (content0 : List String) (file_name : String) :
    Model_call CallResult.timeout = some "" ∧
    (qwen_vl_predict (call "" (summaryUserPrompt file_name
        (detect_language (joinSep "\n" ((content0.map normalizePage).take 5)))
        (content0.map normalizePage))) = none →
      process_content call content0 file_name = none) ∧
    (∀ fs i, i < (content0.map normalizePage).length - 1 →
      qwen_vl_predict (call "" (summaryUserPrompt file_name
        (detect_language (joinSep "\n" ((content0.map normalizePage).take 5)))
        (content0.map normalizePage))) = some fs →
      qwen_vl_predict (call
        (contextSysPrompt (detect_language (joinSep "\n"
          ((content0.map normalizePage).take 5))))
        (contextUserPrompt fs (content0.map normalizePage) i)) = none →
      process_content call content0 file_name = none) := by
  refine ⟨rfl, ?_, ?_⟩
  · intro h
    simp only [process_content, h]
  · intro fs i hi hsum hctx
    simp only [process_content, hsum]
    have hgather := asyncGather_none
      (fun i => qwen_vl_predict (call
        (contextSysPrompt (detect_language (joinSep "\n"
          ((content0.map normalizePage).take 5))))
        (contextUserPrompt fs (content0.map normalizePage) i)))
      (List.range ((content0.map normalizePage).length - 1)) i
      (List.mem_range.mpr hi) hctx
    rw [hgather]

theorem c7_failed_calls_witness :
    process_content (fun _ _ => [CallResult.error]) ["a", "b"] "f" = none :=
  (c7_failed_calls (fun _ _ => [CallResult.error]) ["a", "b"] "f").2.1 (by decide)

theorem cleanGo_cons_some {fuel : Nat} {c : Char} {rest after : List Char}
    (h : tagMatch (c :: rest) = some after) :
    cleanGo (fuel + 1) (c :: rest) = ' ' :: cleanGo fuel after := by
  simp only [cleanGo, h]

theorem cleanGo_cons_none {fuel : Nat} {c : Char} {rest : List Char}
    (h : tagMatch (c :: rest) = none) :
    cleanGo (fuel + 1) (c :: rest) = c :: cleanGo fuel rest := by
  simp only [cleanGo, h]

theorem nameMatchGo_cons_some {nm : List Char} {nms : List (List Char)}
    {cs rr : List Char} (h : matchCI nm cs = some rr) :
    nameMatchGo (nm :: nms) cs =
      if boundaryOk rr = true then some rr else nameMatchGo nms cs := by
  simp only [nameMatchGo, h]

theorem nameMatchGo_cons_none {nm : List Char} {nms : List (List Char)}
    {cs : List Char} (h : matchCI nm cs = none) :
    nameMatchGo (nm :: nms) cs = nameMatchGo nms cs := by
  simp only [nameMatchGo, h]

theorem matchCI_suffix : ∀ (nm cs r : List Char), matchCI nm cs = some r → r <:+ cs := by
  intro nm
  induction nm with
  | nil =>
    intro cs r h
    simp only [matchCI, Option.some.injEq] at h
    subst h
    exact List.suffix_refl _
  | cons p ps ih =>
    intro cs r h
    cases cs with
    | nil => simp [matchCI] at h
    | cons c cs' =>
      simp only [matchCI] at h
      by_cases hc : c.toLower = p
      · rw [if_pos hc] at h
        exact (ih cs' r h).trans (List.suffix_cons c cs')
      · rw [if_neg hc] at h
        cases h

theorem afterGt_suffix_strict : ∀ (cs r : List Char), afterGt cs = some r →
    r <:+ cs ∧ r.length < cs.length := by
  intro cs r h
  simp only [afterGt] at h
  cases hd : cs.dropWhile (fun c => c != '>') with
  | nil => rw [hd] at h; cases h
  | cons d rest =>
    rw [hd] at h
    simp only [Option.some.injEq] at h
    subst h
    have hsuf : d :: rest <:+ cs := hd ▸ List.dropWhile_suffix _
    refine ⟨(List.suffix_cons d rest).trans hsuf, ?_⟩
    have := hsuf.length_le
    simp only [List.length_cons] at this
    omega

theorem nameMatchGo_suffix : ∀ (names : List (List Char)) (cs r : List Char),
    nameMatchGo names cs = some r → r <:+ cs := by
  intro names
  induction names with
  | nil => intro cs r h; simp [nameMatchGo] at h
  | cons nm nms ih =>
    intro cs r h
    cases hm : matchCI nm cs with
    | none =>
      rw [nameMatchGo_cons_none hm] at h
      exact ih cs r h
    | some rr =>
      rw [nameMatchGo_cons_some hm] at h
      by_cases hb : boundaryOk rr = true
      · rw [if_pos hb] at h
        simp only [Option.some.injEq] at h
        subst h
        exact matchCI_suffix nm cs rr hm
      · rw [if_neg hb] at h
        exact ih cs r h

theorem stripSlash_suffix (cs : List Char) : stripSlash cs <:+ cs := by
  cases cs with
  | nil => exact List.suffix_refl _
  | cons c r =>
    simp only [stripSlash]
    split_ifs with hc
    · exact List.suffix_cons c r
    · exact List.suffix_refl _

theorem tagMatch_shape : ∀ (cs after : List Char), tagMatch cs = some after →
    ∃ cs1, cs = '<' :: cs1 ∧ after <:+ cs1 ∧ after.length < cs1.length := by
  intro cs after h
  cases cs with
  | nil => simp [tagMatch] at h
  | cons c cs1 =>
    simp only [tagMatch] at h
    by_cases hc : c = '<'
    · subst hc
      rw [if_pos rfl] at h
      refine ⟨cs1, rfl, ?_⟩
      cases hm : nameMatch (stripSlash cs1) with
      | none => rw [hm] at h; cases h
      | some rest =>
        rw [hm] at h
        simp only at h
        obtain ⟨h1, h2⟩ := afterGt_suffix_strict rest after h
        have hrest : rest <:+ cs1 :=
          (nameMatchGo_suffix _ _ _ hm).trans (stripSlash_suffix cs1)
        have hle := hrest.length_le
        exact ⟨h1.trans hrest, by omega⟩
    · rw [if_neg hc] at h
      cases h

theorem tagMatch_length {cs after : List Char} (h : tagMatch cs = some after) :
    after.length < cs.length := by
  obtain ⟨cs1, rfl, _, hlt⟩ := tagMatch_shape cs after h
  simp only [List.length_cons]
  omega

theorem tagMatch_ne_lt {c : Char} (hc : ¬ c = '<') (xs : List Char) :
    tagMatch (c :: xs) = none := by
  simp [tagMatch, hc]

theorem cleanGo_nil : ∀ fuel, cleanGo fuel [] = [] := by
  intro fuel; cases fuel <;> rfl

theorem collapseGo_nil : ∀ fuel, collapseGo fuel [] = [] := by
  intro fuel; cases fuel <;> rfl

theorem cleanGo_fuel : ∀ (f1 f2 : Nat) (cs : List Char), cs.length ≤ f1 →
    cs.length ≤ f2 → cleanGo f1 cs = cleanGo f2 cs := by
  intro f1
  induction f1 with
  | zero =>
    intro f2 cs h1 _
    have : cs = [] := List.eq_nil_of_length_eq_zero (Nat.le_zero.mp h1)
    subst this
    rw [cleanGo_nil, cleanGo_nil]
  | succ f1 ih =>
    intro f2 cs h1 h2
    cases cs with
    | nil => rw [cleanGo_nil, cleanGo_nil]
    | cons c rest =>
      cases f2 with
      | zero => simp at h2
      | succ f2 =>
        simp only [List.length_cons] at h1 h2
        cases htm : tagMatch (c :: rest) with
        | some after =>
          have hlen := tagMatch_length htm
          simp only [List.length_cons] at hlen
          rw [cleanGo_cons_some htm, cleanGo_cons_some htm,
            ih f2 after (by omega) (by omega)]
        | none =>
          rw [cleanGo_cons_none htm, cleanGo_cons_none htm,
            ih f2 rest (by omega) (by omega)]

theorem mem_cleanGo : ∀ (fuel : Nat) (cs : List Char) (x : Char),
    x ∈ cleanGo fuel cs → x = ' ' ∨ x ∈ cs := by
  intro fuel
  induction fuel with
  | zero => intro cs x h; simp [cleanGo] at h
  | succ fuel ih =>
    intro cs x h
    cases cs with
    | nil => simp [cleanGo] at h
    | cons c rest =>
      cases htm : tagMatch (c :: rest) with
      | some after =>
        rw [cleanGo_cons_some htm] at h
        rcases List.mem_cons.mp h with rfl | hmem
        · exact Or.inl rfl
        · rcases ih after x hmem with h' | h'
          · exact Or.inl h'
          · obtain ⟨cs1, heq, hsuf, _⟩ := tagMatch_shape _ _ htm
            have hx : x ∈ cs1 := hsuf.subset h'
            rw [heq]
            exact Or.inr (List.mem_cons_of_mem _ hx)
      | none =>
        rw [cleanGo_cons_none htm] at h
        rcases List.mem_cons.mp h with rfl | hmem
        · exact Or.inr (List.mem_cons_self _ _)
        · rcases ih rest x hmem with h' | h'
          · exact Or.inl h'
          · exact Or.inr (List.mem_cons_of_mem _ h')

theorem tagNames_lower : ∀ nm ∈ tagNames, ∀ p ∈ nm,
    97 ≤ p.toNat ∧ p.toNat ≤ 122 := by decide

theorem nameMatch_nil : nameMatch [] = none := by decide

theorem nameMatch_cons_ne {c : Char} (h : ¬ c.toLower = 't') (xs : List Char) :
    nameMatch (c :: xs) = none := by
  simp [nameMatch, nameMatchGo, tagNames, matchCI, h]

theorem matchCI_clean : ∀ (nm : List Char),
    (∀ p ∈ nm, 97 ≤ p.toNat ∧ p.toNat ≤ 122) →
    ∀ (fuel : Nat) (cs rOut : List Char), cs.length ≤ fuel →
      matchCI nm (cleanGo fuel cs) = some rOut →
      ∃ rest' f', rest'.length ≤ f' ∧ matchCI nm cs = some rest' ∧
        rOut = cleanGo f' rest' := by
  intro nm
  induction nm with
  | nil =>
    intro _ fuel cs rOut hf h
    simp only [matchCI, Option.some.injEq] at h
    exact ⟨cs, fuel, hf, rfl, h.symm⟩
  | cons p ps ih =>
    intro hnm fuel cs rOut hf h
    have hp : 97 ≤ p.toNat ∧ p.toNat ≤ 122 := hnm p (List.mem_cons_self _ _)
    cases fuel with
    | zero =>
      rw [show cleanGo 0 cs = [] from rfl] at h
      simp [matchCI] at h
    | succ f =>
      cases cs with
      | nil =>
        rw [cleanGo_nil] at h
        simp [matchCI] at h
      | cons c rest =>
        simp only [List.length_cons] at hf
        cases htm : tagMatch (c :: rest) with
        | some after =>
          rw [cleanGo_cons_some htm] at h
          simp only [matchCI] at h
          have hne : ¬ (' ').toLower = p := by
            intro hcontra
            have h32 : p.toNat = 32 := by rw [← hcontra]; decide
            omega
          rw [if_neg hne] at h
          cases h
        | none =>
          rw [cleanGo_cons_none htm] at h
          simp only [matchCI] at h
          by_cases hc : c.toLower = p
          · rw [if_pos hc] at h
            obtain ⟨rest', f', hlen, hm, hout⟩ :=
              ih (fun q hq => hnm q (List.mem_cons_of_mem _ hq)) f rest rOut
                (by omega) h
            refine ⟨rest', f', hlen, ?_, hout⟩
            simp only [matchCI]
            rw [if_pos hc]
            exact hm
          · rw [if_neg hc] at h
            cases h

theorem boundaryOk_clean : ∀ (fuel : Nat) (rest' : List Char),
    rest'.length ≤ fuel → boundaryOk (cleanGo fuel rest') = boundaryOk rest' := by
  intro fuel rest' h
  cases rest' with
  | nil => rw [cleanGo_nil]
  | cons d r2 =>
    cases fuel with
    | zero => simp at h
    | succ f =>
      cases htm : tagMatch (d :: r2) with
      | some after =>
        rw [cleanGo_cons_some htm]
        obtain ⟨cs1, heq, -, -⟩ := tagMatch_shape _ _ htm
        have hd : d = '<' := by injection heq with h1 h2
        subst hd
        simp only [boundaryOk]
        decide
      | none =>
        rw [cleanGo_cons_none htm]
        rfl

theorem afterGt_isSome : ∀ cs : List Char, (afterGt cs).isSome = true ↔ '>' ∈ cs := by
  intro cs
  induction cs with
  | nil => simp [afterGt]
  | cons c rest ih =>
    by_cases hc : c = '>'
    · subst hc
      simp [afterGt, List.dropWhile]
    · have hb : (c != '>') = true := by
        simp only [bne_iff_ne, ne_eq]
        exact hc
      have hstep : afterGt (c :: rest) = afterGt rest := by
        simp [afterGt, List.dropWhile, hb]
      rw [hstep, ih]
      simp [List.mem_cons, eq_comm, hc]

theorem gt_mem_clean {f' : Nat} {rest' : List Char}
    (h : '>' ∈ cleanGo f' rest') : '>' ∈ rest' := by
  rcases mem_cleanGo f' rest' '>' h with h' | h'
  · exact absurd h' (by decide)
  · exact h'

theorem matchCI_gt : ∀ (nm cs r : List Char),
    (∀ p ∈ nm, 97 ≤ p.toNat ∧ p.toNat ≤ 122) →
    matchCI nm cs = some r → '>' ∈ cs → '>' ∈ r := by
  intro nm
  induction nm with
  | nil =>
    intro cs r _ h hgt
    simp only [matchCI, Option.some.injEq] at h
    subst h
    exact hgt
  | cons p ps ih =>
    intro cs r hnm h hgt
    cases cs with
    | nil => simp [matchCI] at h
    | cons c cs' =>
      simp only [matchCI] at h
      by_cases hc : c.toLower = p
      · rw [if_pos hc] at h
        rcases List.mem_cons.mp hgt with heq | hmem
        · exfalso
          have hcg : c = '>' := heq.symm
          subst hcg
          have hp := hnm p (List.mem_cons_self _ _)
          have h62 : p.toNat = 62 := by rw [← hc]; decide
          omega
        · exact ih cs' r (fun q hq => hnm q (List.mem_cons_of_mem _ hq)) h hmem
      · rw [if_neg hc] at h
        cases h

theorem nameMatchGo_clean : ∀ (names : List (List Char)),
    (∀ nm ∈ names, ∀ p ∈ nm, 97 ≤ p.toNat ∧ p.toNat ≤ 122) →
    ∀ (fuel : Nat) (cs rOut : List Char), cs.length ≤ fuel →
      nameMatchGo names (cleanGo fuel cs) = some rOut → '>' ∈ rOut →
      ∃ rAny, nameMatchGo names cs = some rAny ∧ '>' ∈ rAny := by
  intro names
  induction names with
  | nil => intro _ fuel cs rOut _ h _; simp [nameMatchGo] at h
  | cons nm nms ih =>
    intro hn fuel cs rOut hf h hgt
    have hnm : ∀ p ∈ nm, 97 ≤ p.toNat ∧ p.toNat ≤ 122 :=
      hn nm (List.mem_cons_self _ _)
    have hns : ∀ nm' ∈ nms, ∀ p ∈ nm', 97 ≤ p.toNat ∧ p.toNat ≤ 122 :=
      fun nm' h' => hn nm' (List.mem_cons_of_mem _ h')
    cases hm : matchCI nm (cleanGo fuel cs) with
    | some rr =>
      rw [nameMatchGo_cons_some hm] at h
      obtain ⟨rest', f', hlen', hmorig, hout⟩ := matchCI_clean nm hnm fuel cs rr hf hm
      by_cases hb : boundaryOk rr = true
      · rw [if_pos hb] at h
        simp only [Option.some.injEq] at h
        subst h
        have hborig : boundaryOk rest' = true := by
          rw [← boundaryOk_clean f' rest' hlen', ← hout]
          exact hb
        refine ⟨rest', ?_, ?_⟩
        · rw [nameMatchGo_cons_some hmorig, if_pos hborig]
        · apply gt_mem_clean
          rw [← hout]
          exact hgt
      · rw [if_neg hb] at h
        have hborig : ¬ boundaryOk rest' = true := by
          intro hbo
          apply hb
          rw [hout, boundaryOk_clean f' rest' hlen']
          exact hbo
        obtain ⟨rAny, hA, hAgt⟩ := ih hns fuel cs rOut hf h hgt
        refine ⟨rAny, ?_, hAgt⟩
        rw [nameMatchGo_cons_some hmorig, if_neg hborig]
        exact hA
    | none =>
      rw [nameMatchGo_cons_none hm] at h
      obtain ⟨rAny, hA, hAgt⟩ := ih hns fuel cs rOut hf h hgt
      cases hmo : matchCI nm cs with
      | none =>
        refine ⟨rAny, ?_, hAgt⟩
        rw [nameMatchGo_cons_none hmo]
        exact hA
      | some rr' =>
        by_cases hbo : boundaryOk rr' = true
        · have hgtcs : '>' ∈ cs := (nameMatchGo_suffix nms cs rAny hA).subset hAgt
          have hgtrr : '>' ∈ rr' := matchCI_gt nm cs rr' hnm hmo hgtcs
          refine ⟨rr', ?_, hgtrr⟩
          rw [nameMatchGo_cons_some hmo, if_pos hbo]
        · refine ⟨rAny, ?_, hAgt⟩
          rw [nameMatchGo_cons_some hmo, if_neg hbo]
          exact hA

theorem tagMatch_clean_none : ∀ (fuel : Nat) (c : Char) (rest : List Char),
    rest.length ≤ fuel → tagMatch (c :: rest) = none →
    tagMatch (c :: cleanGo fuel rest) = none := by
  intro fuel c rest hf horig
  by_cases hc : c = '<'
  case neg => exact tagMatch_ne_lt hc _
  subst hc
  by_contra hne
  obtain ⟨a, ha⟩ := Option.ne_none_iff_exists'.mp hne
  simp only [tagMatch, if_pos rfl] at ha
  cases hnm : nameMatch (stripSlash (cleanGo fuel rest)) with
  | none => rw [hnm] at ha; cases ha
  | some rr =>
    rw [hnm] at ha
    simp only [if_true] at ha
    have hgtrr : '>' ∈ rr := by
      have hs : (afterGt rr).isSome = true := by rw [ha]; rfl
      exact (afterGt_isSome rr).mp hs
    cases rest with
    | nil =>
      rw [cleanGo_nil] at hnm
      rw [show stripSlash [] = [] from rfl, nameMatch_nil] at hnm
      cases hnm
    | cons r0 rest' =>
      cases fuel with
      | zero => simp at hf
      | succ f =>
        cases htm0 : tagMatch (r0 :: rest') with
        | some af =>
          rw [cleanGo_cons_some htm0] at hnm
          rw [show stripSlash (' ' :: cleanGo f af) = ' ' :: cleanGo f af from by
            simp [stripSlash]] at hnm
          rw [nameMatch_cons_ne (by decide)] at hnm
          cases hnm
        | none =>
          by_cases hr0 : r0 = '/'
          · subst hr0
            rw [cleanGo_cons_none htm0] at hnm
            rw [show stripSlash ('/' :: cleanGo f rest') = cleanGo f rest' from by
              simp [stripSlash]] at hnm
            simp only [List.length_cons] at hf
            obtain ⟨rAny, hAo, hAgt⟩ :=
              nameMatchGo_clean tagNames tagNames_lower f rest' rr (by omega) hnm hgtrr
            obtain ⟨x, hx⟩ := Option.isSome_iff_exists.mp
              ((afterGt_isSome rAny).mpr hAgt)
            have htag : tagMatch ('<' :: '/' :: rest') = afterGt rAny := by
              simp only [tagMatch, nameMatch, if_true]
              rw [show stripSlash ('/' :: rest') = rest' from by simp [stripSlash],
                hAo]
            rw [htag, hx] at horig
            cases horig
          · have hout : cleanGo (f + 1) (r0 :: rest') = r0 :: cleanGo f rest' :=
              cleanGo_cons_none htm0
            have hss : stripSlash (cleanGo (f + 1) (r0 :: rest')) =
                cleanGo (f + 1) (r0 :: rest') := by
              rw [hout]
              simp [stripSlash, hr0]
            rw [hss] at hnm
            obtain ⟨rAny, hAo, hAgt⟩ :=
              nameMatchGo_clean tagNames tagNames_lower (f + 1) (r0 :: rest') rr
                (by simpa using hf) hnm hgtrr
            obtain ⟨x, hx⟩ := Option.isSome_iff_exists.mp
              ((afterGt_isSome rAny).mpr hAgt)
            have htag : tagMatch ('<' :: r0 :: rest') = afterGt rAny := by
              simp only [tagMatch, nameMatch, if_true]
              rw [show stripSlash (r0 :: rest') = r0 :: rest' from by
                simp [stripSlash, hr0], hAo]
            rw [htag, hx] at horig
            cases horig

theorem cleanGo_no_tags : ∀ (fuel : Nat) (cs : List Char), cs.length ≤ fuel →
    hasTagL (cleanGo fuel cs) = false := by
  intro fuel
  induction fuel with
  | zero => intro cs _; rw [show cleanGo 0 cs = [] from rfl]; rfl
  | succ fuel ih =>
    intro cs h
    cases cs with
    | nil => rw [cleanGo_nil]; rfl
    | cons c rest =>
      simp only [List.length_cons] at h
      cases htm : tagMatch (c :: rest) with
      | some after =>
        rw [cleanGo_cons_some htm]
        have h1 : tagMatch (' ' :: cleanGo fuel after) = none :=
          tagMatch_ne_lt (by decide) _
        have hlen := tagMatch_length htm
        simp only [List.length_cons] at hlen
        simp [hasTagL, h1, ih after (by omega)]
      | none =>
        rw [cleanGo_cons_none htm]
        have h1 : tagMatch (c :: cleanGo fuel rest) = none :=
          tagMatch_clean_none fuel c rest (by omega) htm
        simp [hasTagL, h1, ih rest (by omega)]

theorem clean_html_tags_no_tags (s : String) :
    hasTagL (clean_html_tags s).data = false :=
  cleanGo_no_tags s.data.length s.data (Nat.le_refl _)

/-! ### The repeat-collapse of `n ≥ 21` copies of `"ERR"` -/

theorem countRepsGo_not_prefix {g cs : List Char} (h : g.isPrefixOf cs = false) :
    ∀ fuel, countRepsGo g fuel cs = 0 := by
  intro fuel
  cases fuel with
  | zero => rfl
  | succ f => simp [countRepsGo, h]

theorem err_isPrefixOf_append (X : List Char) :
    (['E', 'R', 'R'] : List Char).isPrefixOf ('E' :: 'R' :: 'R' :: X) = true := by
  simp [List.isPrefixOf]

theorem countRepsGo_err : ∀ (m fuel : Nat), 3 * m ≤ fuel →
    countRepsGo ['E', 'R', 'R'] fuel (repeatList ['E', 'R', 'R'] m) = m := by
  intro m
  induction m with
  | zero =>
    intro fuel _
    have hpre : (['E', 'R', 'R'] : List Char).isPrefixOf (repeatList ['E', 'R', 'R'] 0) = false := by
      simp [repeatList, List.isPrefixOf]
    exact countRepsGo_not_prefix hpre fuel
  | succ m ih =>
    intro fuel hfuel
    cases fuel with
    | zero => omega
    | succ f =>
      have hform : repeatList ['E', 'R', 'R'] (m + 1) =
          'E' :: 'R' :: 'R' :: repeatList ['E', 'R', 'R'] m := rfl
      rw [hform]
      simp only [countRepsGo, err_isPrefixOf_append, List.isEmpty_cons,
        Bool.not_false, Bool.and_self, if_true, Bool.true_and]
      have hdrop : ('E' :: 'R' :: 'R' :: repeatList ['E', 'R', 'R'] m).drop
          (['E', 'R', 'R'] : List Char).length = repeatList ['E', 'R', 'R'] m := rfl
      rw [hdrop, ih f (by omega)]

theorem findFrom_step (cs : List Char) (L bound : Nat) :
    findFrom cs L (bound + 1) =
      match tryL cs L with
      | some r => some r
      | none => findFrom cs (L + 1) bound := rfl

theorem collapseGo_cons_some {fuel : Nat} {c : Char} {rest g after : List Char}
    (h : findMatch (c :: rest) = some (g, after)) :
    collapseGo (fuel + 1) (c :: rest) = g ++ collapseGo fuel after := by
  simp only [collapseGo, h]

theorem findMatch_err (m : Nat) (hm : 20 ≤ m) :
    findMatch (repeatList ['E', 'R', 'R'] (m + 1)) = some (['E', 'R', 'R'], []) := by
  have hform : repeatList ['E', 'R', 'R'] (m + 1) =
      'E' :: 'R' :: 'R' :: repeatList ['E', 'R', 'R'] m := rfl
  have hlen : (repeatList ['E', 'R', 'R'] (m + 1)).length = 3 * (m + 1) := by
    rw [repeatList_length]
    rfl
  have h1 : tryL (repeatList ['E', 'R', 'R'] (m + 1)) 1 = none := by
    rw [hform]
    simp only [tryL]
    rw [show ('E' :: 'R' :: 'R' :: repeatList ['E', 'R', 'R'] m).take 1 = ['E']
      from rfl]
    rw [if_pos (by decide)]
    rw [show ('E' :: 'R' :: 'R' :: repeatList ['E', 'R', 'R'] m).drop 1 =
      'R' :: 'R' :: repeatList ['E', 'R', 'R'] m from rfl]
    have hc : countReps ['E'] ('R' :: 'R' :: repeatList ['E', 'R', 'R'] m) = 0 :=
      countRepsGo_not_prefix (by simp [List.isPrefixOf]) _
    rw [hc]
    simp
  have h2 : tryL (repeatList ['E', 'R', 'R'] (m + 1)) 2 = none := by
    rw [hform]
    simp only [tryL]
    rw [show ('E' :: 'R' :: 'R' :: repeatList ['E', 'R', 'R'] m).take 2 = ['E', 'R']
      from rfl]
    rw [if_pos (by decide)]
    rw [show ('E' :: 'R' :: 'R' :: repeatList ['E', 'R', 'R'] m).drop 2 =
      'R' :: repeatList ['E', 'R', 'R'] m from rfl]
    have hc : countReps ['E', 'R'] ('R' :: repeatList ['E', 'R', 'R'] m) = 0 :=
      countRepsGo_not_prefix (by simp [List.isPrefixOf]) _
    rw [hc]
    simp
  have h3 : tryL (repeatList ['E', 'R', 'R'] (m + 1)) 3 =
      some (['E', 'R', 'R'], []) := by
    rw [hform]
    simp only [tryL]
    rw [show ('E' :: 'R' :: 'R' :: repeatList ['E', 'R', 'R'] m).take 3 =
      ['E', 'R', 'R'] from rfl]
    rw [if_pos (by decide)]
    rw [show ('E' :: 'R' :: 'R' :: repeatList ['E', 'R', 'R'] m).drop 3 =
      repeatList ['E', 'R', 'R'] m from rfl]
    have hc : countReps ['E', 'R', 'R'] (repeatList ['E', 'R', 'R'] m) = m := by
      rw [countReps, repeatList_length]
      exact countRepsGo_err m _ (by simp)
    rw [hc, if_pos hm]
    have hdrop : ('E' :: 'R' :: 'R' :: repeatList ['E', 'R', 'R'] m).drop
        (3 * (m + 1)) = [] := by
      apply List.drop_eq_nil_iff.mpr
      rw [← hform, hlen]
    rw [hdrop]
  have hbound : 3 ≤ (repeatList ['E', 'R', 'R'] (m + 1)).length / 21 := by
    rw [hlen]
    omega
  obtain ⟨b, hb⟩ : ∃ b, (repeatList ['E', 'R', 'R'] (m + 1)).length / 21 = b + 3 :=
    ⟨(repeatList ['E', 'R', 'R'] (m + 1)).length / 21 - 3, by omega⟩
  calc findMatch (repeatList ['E', 'R', 'R'] (m + 1))
      = findFrom (repeatList ['E', 'R', 'R'] (m + 1)) 1 (b + 3) := by
        rw [findMatch, hb]
    _ = findFrom (repeatList ['E', 'R', 'R'] (m + 1)) 2 (b + 2) := by
        rw [findFrom_step, h1]
    _ = findFrom (repeatList ['E', 'R', 'R'] (m + 1)) 3 (b + 1) := by
        rw [findFrom_step, h2]
    _ = some (['E', 'R', 'R'], []) := by
        rw [findFrom_step, h3]

theorem collapseRepeats_err (n : Nat) (hn : 21 ≤ n) :
    collapseRepeats (repeatStr "ERR" n) = "ERR" := by
  obtain ⟨m, rfl⟩ : ∃ m, n = m + 1 := ⟨n - 1, by omega⟩
  have hm : 20 ≤ m := by omega
  have hdata : (repeatStr "ERR" (m + 1)).data = repeatList ['E', 'R', 'R'] (m + 1) :=
    rfl
  rw [collapseRepeats]
  have hlen : (repeatStr "ERR" (m + 1)).data.length = 3 * (m + 1) := by
    rw [hdata, repeatList_length]
    rfl
  obtain ⟨w, hw⟩ : ∃ w, (repeatStr "ERR" (m + 1)).data.length = w + 1 :=
    ⟨3 * (m + 1) - 1, by omega⟩
  rw [hw, hdata]
  rw [show repeatList ['E', 'R', 'R'] (m + 1) =
    'E' :: 'R' :: 'R' :: repeatList ['E', 'R', 'R'] m from rfl]
  rw [collapseGo_cons_some (by
    rw [show ('E' :: 'R' :: 'R' :: repeatList ['E', 'R', 'R'] m : List Char) =
      repeatList ['E', 'R', 'R'] (m + 1) from rfl]
    exact findMatch_err m hm)]
  rw [collapseGo_nil]
  rfl

theorem normalizePage_err (n : Nat) (hn : 21 ≤ n) :
    normalizePage (repeatStr "ERR" n) = "ERR" := by
  obtain ⟨m, rfl⟩ : ∃ m, n = m + 1 := ⟨n - 1, by omega⟩
  have hdata : (repeatStr "ERR" (m + 1)).data =
      'E' :: 'R' :: 'R' :: repeatList ['E', 'R', 'R'] m := rfl
  have hne1 : ¬ (repeatStr "ERR" (m + 1)).data = [] := by rw [hdata]; simp
  have h1 : (repeatStr "ERR" (m + 1)).data.dropWhile Char.isWhitespace =
      'E' :: 'R' :: 'R' :: repeatList ['E', 'R', 'R'] m := by
    rw [hdata, List.dropWhile_cons, if_neg (by decide)]
  have h2 : ('E' :: 'R' :: 'R' :: repeatList ['E', 'R', 'R'] m).reverse =
      'R' :: 'R' :: 'E' :: repeatList ['R', 'R', 'E'] m := by
    rw [show ('E' :: 'R' :: 'R' :: repeatList ['E', 'R', 'R'] m : List Char) =
      repeatList ['E', 'R', 'R'] (m + 1) from rfl]
    rw [repeatList_reverse]
    rfl
  have hstrip : ¬ (pyStrip (repeatStr "ERR" (m + 1))).data = [] := by
    show ¬ ((((repeatStr "ERR" (m + 1)).data.dropWhile
        Char.isWhitespace).reverse.dropWhile Char.isWhitespace).reverse) = []
    rw [h1, h2, List.dropWhile_cons, if_neg (by decide)]
    simp
  rw [normalizePage, if_neg (fun h => h.elim hne1 hstrip)]
  rw [collapseRepeats_err _ (by omega)]
  decide

/-- Whatever `normalizePage` produces contains no table tag: either the page
was blanked to `""`, or it went through `clean_html_tags`. -/
theorem normalizePage_no_tags (s : String) :
    hasTagL (normalizePage s).data = false := by
  rw [normalizePage]
  by_cases h : s.data = [] ∨ (pyStrip s).data = []
  · rw [if_pos h]; rfl
  · rw [if_neg h]
    exact clean_html_tags_no_tags _

/-- C9, the claim as frozen, refuted: a run of 21 consecutive repetitions of
the substring `"a\n"` is *not* collapsed — the regex `(.+?)\1{20,}` cannot
capture a unit containing a newline, because `.` does not match `\n` — so
the page passes through normalization unchanged instead of collapsing to one
occurrence. -/
theorem c9_counterexample :
    repeatStr "a\n" 21 ≠ "" ∧
    normalizePage (repeatStr "a\n" 21) = repeatStr "a\n" 21 ∧
    repeatStr "a\n" 21 ≠ "a\n" := by
  refine ⟨by decide, by decide, by decide⟩

/-- C9 (amended).  Normalization (a) removes the table-structure tags
`table`, `tr`, `td`, `th`, `thead`, `tbody`, `tfoot` case-insensitively, each
match replaced by a single space, and no table tag remains in any normalised
page — on the spec's example, `<table><tr><td>x</td></tr></table>` becomes
`"   x   "`; (b) collapses a run of `n ≥ 21` consecutive repetitions of the
newline-free unit `"ERR"` down to a single `"ERR"` (runs whose repeating unit
contains a newline are not collapsed, since `.` does not match `\n`); and
(c) passes empty page text through unchanged as empty. -/
theorem c9_normalization (s : String) (n : Nat) (hn : 21 ≤ n) :
    normalizePage (repeatStr "ERR" n) = "ERR" ∧
    hasTagL (clean_html_tags s).data = false ∧
    hasTagL (normalizePage s).data = false ∧
    clean_html_tags "<table><tr><td>x</td></tr></table>" = "   x   " ∧
    normalizePage "" = "" ∧
    normalizePage (repeatStr "a\n" 21) = repeatStr "a\n" 21 :=
  ⟨normalizePage_err n hn, clean_html_tags_no_tags s, normalizePage_no_tags s,
    by decide, rfl, by decide⟩

theorem c9_normalization_witness :
    21 ≤ 25 ∧ normalizePage (repeatStr "ERR" 25) = "ERR" :=
  ⟨by omega, (c9_normalization "x" 25 (by omega)).1⟩
